import Mathlib

/-!
# Streaming chat endpoints: title summarizer and session controller

A shallow embedding of `server/endpoints/chat.js`.

JavaScript strings are sequences of UTF-16 code units; a string is modelled
as a `List Nat` of code units, so `length`, indexing and `slice` coincide with
the source.  The regular expressions of `summarizeTitle` have no `u` flag, so
they too work on code units.
-/

namespace Chat

/-! ## Strings -/

/-- UTF-16 encoding of one code point. -/
def utf16Char (c : Char) : List Nat :=
  if c.toNat < 65536 then [c.toNat]
  else [55296 + (c.toNat - 65536) / 1024, 56320 + (c.toNat - 65536) % 1024]

/-- UTF-16 code units of a string literal. -/
def utf16 (s : String) : List Nat :=
  s.toList.flatMap utf16Char

/-- The regular-expression class `\s` (also what `String.prototype.trim` strips):
TAB, LF, VT, FF, CR, SPACE, NBSP, U+1680, U+2000..U+200A, U+2028, U+2029,
U+202F, U+205F, U+3000 and U+FEFF. -/
def isWs (c : Nat) : Bool :=
  c == 9 || c == 10 || c == 11 || c == 12 || c == 13 || c == 32 || c == 160 ||
  c == 5760 || (8192 ≤ c && c ≤ 8202) || c == 8232 || c == 8233 || c == 8239 ||
  c == 8287 || c == 12288 || c == 65279

/-- The regular-expression class `\w` without the `u` flag: `[A-Za-z0-9_]`. -/
def isWord (c : Nat) : Bool :=
  (65 ≤ c && c ≤ 90) || (97 ≤ c && c ≤ 122) || (48 ≤ c && c ≤ 57) || c == 95

/-- Canonicalisation used by a case-insensitive pattern letter: an ASCII
capital is folded to its small letter.  (Without the `u` flag no code unit
outside ASCII canonicalises to an ASCII letter.) -/
def foldCase (c : Nat) : Nat :=
  if 65 ≤ c && c ≤ 90 then c + 32 else c

/-- Drop the trailing run of units satisfying `p`. -/
def dropTrailing (p : Nat → Bool) (l : List Nat) : List Nat :=
  (l.reverse.dropWhile p).reverse

/-- Source: `String.prototype.trim`. -/
def trim (l : List Nat) : List Nat :=
  dropTrailing isWs (l.dropWhile isWs)

/-- Source: `text.split(/\r?\n/)[0]`: the text before the first line break, where a
line break is LF or CR LF. -/
def firstLine : List Nat → List Nat
  | [] => []
  | c :: cs =>
    if c = 10 then []
    else if c = 13 ∧ cs.head? = some 10 then []
    else c :: firstLine cs

/-- Source: `text.replace(/^#+\s*/, "")`. -/
def stripHeading (l : List Nat) : List Nat :=
  if l.head? = some 35 then (l.dropWhile (· == 35)).dropWhile isWs else l

/-- Source: `text.replace(/[backtick]+/g, "")`: every backtick (unit 96) is removed. -/
def stripTicks (l : List Nat) : List Nat :=
  l.filter (· != 96)

/-- Does `pat` (already lower-case ASCII) match at the head of `l`,
case-sensitively?  Returns the rest of `l` after the match. -/
def matchLit : List Nat → List Nat → Option (List Nat)
  | [], l => some l
  | _ :: _, [] => none
  | p :: ps, c :: cs => if c = p then matchLit ps cs else none

/-- Does `https?:\/\/\S+` match at the head of `l`? -/
def urlStartsAt (l : List Nat) : Bool :=
  match matchLit [104, 116, 116, 112] l with
  | none => false
  | some r =>
    let afterScheme : Option (List Nat) :=
      match matchLit [115, 58, 47, 47] r with
      | some r2 => some r2
      | none => matchLit [58, 47, 47] r
    match afterScheme with
    | some (c :: _) => !isWs c
    | _ => false

/-- Scanner for `text.replace(/https?:\/\/\S+/g, "")`.  A match begins with
non-whitespace units and `\S+` is greedy, so a match is exactly the maximal
run of non-whitespace units from its first unit; `inUrl` records that the
scanner is inside such a run. -/
def stripUrlsAux : Bool → List Nat → List Nat
  | _, [] => []
  | true, c :: cs =>
    if isWs c then c :: stripUrlsAux false cs else stripUrlsAux true cs
  | false, c :: cs =>
    if urlStartsAt (c :: cs) then stripUrlsAux true cs
    else c :: stripUrlsAux false cs

/-- Source: `text.replace(/https?:\/\/\S+/g, "")`. -/
def stripUrls (l : List Nat) : List Nat :=
  stripUrlsAux false l

/-! ## The prompt-prefix pattern

`/^\s*(please\s+)?(write|explain|describe|create|implement|how\s+(do|to)|what\s+is|can\s+you|help\s+me|summarize|draft|generate|build|show\s+me|give\s+me)\b[:,-]?\s*/i`
-/

/-- Case-insensitive match of a lower-case ASCII literal at the head of `l`;
returns the rest of `l`. -/
def matchLitCI : List Nat → List Nat → Option (List Nat)
  | [], l => some l
  | _ :: _, [] => none
  | p :: ps, c :: cs => if foldCase c = p then matchLitCI ps cs else none

/-- The sub-pattern `\s+`: at least one whitespace unit, greedily. -/
def matchWsPlus : List Nat → Option (List Nat)
  | [] => none
  | c :: cs => if isWs c then some (cs.dropWhile isWs) else none

/-- Words joined by `\s+`, e.g. `how\s+do` is `[how, do]`. -/
def matchWords : List (List Nat) → List Nat → Option (List Nat)
  | [], l => some l
  | [w], l => matchLitCI w l
  | w :: ws, l =>
    match matchLitCI w l with
    | none => none
    | some r =>
      match matchWsPlus r with
      | none => none
      | some r2 => matchWords ws r2

/-- The alternatives of the opener group, in source order (`how\s+(do|to)`
is unfolded into its two branches). -/
def openers : List (List (List Nat)) :=
  [ [utf16 "write"], [utf16 "explain"], [utf16 "describe"], [utf16 "create"],
    [utf16 "implement"], [utf16 "how", utf16 "do"], [utf16 "how", utf16 "to"],
    [utf16 "what", utf16 "is"], [utf16 "can", utf16 "you"],
    [utf16 "help", utf16 "me"], [utf16 "summarize"], [utf16 "draft"],
    [utf16 "generate"], [utf16 "build"], [utf16 "show", utf16 "me"],
    [utf16 "give", utf16 "me"] ]

/-- The assertion `\b` right after an opener (whose last unit is a letter):
the text ends here or the next unit is not a word unit. -/
def atWordEnd : List Nat → Bool
  | [] => true
  | c :: _ => !isWord c

/-- One alternative followed by `\b`. -/
def matchOpenerAlt (alt : List (List Nat)) (l : List Nat) : Option (List Nat) :=
  match matchWords alt l with
  | some r => if atWordEnd r then some r else none
  | none => none

/-- The opener group followed by `\b`: the first alternative that matches. -/
def matchOpenerFrom : List (List (List Nat)) → List Nat → Option (List Nat)
  | [], _ => none
  | alt :: alts, l =>
    match matchOpenerAlt alt l with
    | some r => some r
    | none => matchOpenerFrom alts l

/-- The opener group followed by `\b`. -/
def matchOpener (l : List Nat) : Option (List Nat) :=
  matchOpenerFrom openers l

/-- The optional group `(please\s+)`. -/
def matchPlease (l : List Nat) : Option (List Nat) :=
  match matchLitCI (utf16 "please") l with
  | some r => matchWsPlus r
  | none => none

/-- The sub-pattern `[:,-]?`. -/
def dropPunct : List Nat → List Nat
  | [] => []
  | c :: cs => if c = 58 ∨ c = 44 ∨ c = 45 then cs else c :: cs

/-- The whole prefix pattern, anchored at the start: the rest of the text
after the match, or `none` when the pattern does not match.  The optional
`please` group is tried first; when the opener does not follow it the group is
skipped and the opener is tried at the original position. -/
def matchPrefix (l : List Nat) : Option (List Nat) :=
  let l0 := l.dropWhile isWs
  let viaPlease : Option (List Nat) :=
    match matchPlease l0 with
    | some r => matchOpener r
    | none => none
  let afterOpener : Option (List Nat) :=
    match viaPlease with
    | some r => some r
    | none => matchOpener l0
  match afterOpener with
  | some r => some ((dropPunct r).dropWhile isWs)
  | none => none

/-- Source: `text.replace(<prefix pattern>, "")`. -/
def stripPrefix (l : List Nat) : List Nat :=
  match matchPrefix l with
  | some r => r
  | none => l

/-! ## Sentence cut, whitespace and decoration -/

/-- The class `[.!?]`. -/
def isTerminator (c : Nat) : Bool :=
  c == 46 || c == 33 || c == 63

/-- Source: `text.search(/[.!?]/)`: index of the first terminator; `none` stands for
the source's `-1`. -/
def searchTerminator : List Nat → Option Nat
  | [] => none
  | c :: cs =>
    if isTerminator c then some 0 else (searchTerminator cs).map (· + 1)

/-- Source: `if (sentenceEnd > 8) text = text.slice(0, sentenceEnd + 1)`. -/
def sentenceCut (l : List Nat) : List Nat :=
  match searchTerminator l with
  | some i => if 8 < i then l.take (i + 1) else l
  | none => l

/-- Scanner for `text.replace(/\s+/g, " ")`; `prevWs` records that the
previous unit was whitespace, whose run has already produced its space. -/
def collapseWsAux : Bool → List Nat → List Nat
  | _, [] => []
  | prevWs, c :: cs =>
    if isWs c then
      if prevWs then collapseWsAux true cs else 32 :: collapseWsAux true cs
    else c :: collapseWsAux false cs

/-- Source: `text.replace(/\s+/g, " ")`. -/
def collapseWs (l : List Nat) : List Nat :=
  collapseWsAux false l

/-- The class `[-–•\s]`. -/
def isLeadDecor (c : Nat) : Bool :=
  c == 45 || c == 8211 || c == 8226 || isWs c

/-- The class `[\s:;,-]`. -/
def isTrailDecor (c : Nat) : Bool :=
  isWs c || c == 58 || c == 59 || c == 44 || c == 45

/-- Source: `text.replace(/^[-–•\s]+/, "").replace(/[\s:;,-]+$/, "")`. -/
def stripDecor (l : List Nat) : List Nat :=
  dropTrailing isTrailDecor (l.dropWhile isLeadDecor)

/-! ## Capitalisation and truncation -/

/-- Source: `String.prototype.toUpperCase` on a one-unit string.  ASCII is spelled
out; for the other units the Unicode upper-case mapping is the table `tbl`
(the result may be longer than one unit, as for U+00DF). -/
def toUpperCase (tbl : Nat → List Nat) (c : Nat) : List Nat :=
  if 97 ≤ c ∧ c ≤ 122 then [c - 32]
  else if c < 128 then [c]
  else tbl c

/-- Source: `if (text.length > 0) text = text[0].toUpperCase() + text.slice(1)`. -/
def capitalize (tbl : Nat → List Nat) : List Nat → List Nat
  | [] => []
  | c :: cs => toUpperCase tbl c ++ cs

/-- Modelled from the spec: the `truncate` package required on line 18 is not
part of the sources.  Section 4.1 step 12 asks for a result of at most `max`
characters, the ellipsis marker (U+2026) included, that does not end inside a
multi-unit character: a text that fits is returned as is; otherwise the first
`max - 1` units are kept, a high surrogate left dangling at the cut is
dropped, and the marker is appended. -/
def truncate (l : List Nat) (max : Nat) : List Nat :=
  if l.length ≤ max then l
  else
    let kept := l.take (max - 1)
    let kept2 :=
      match kept.getLast? with
      | some u => if 55296 ≤ u ∧ u ≤ 56319 then kept.dropLast else kept
      | none => kept
    kept2 ++ [8230]

/-! ## summarizeTitle -/

/-- The literal `"Thread"`. -/
def threadTitle : List Nat := utf16 "Thread"

/-- Lines 28-37 of `summarizeTitle`: trim, first line, heading marker,
backticks, URLs, prompt prefix. -/
def frontClean (s : List Nat) : List Nat :=
  stripPrefix (stripUrls (stripTicks (stripHeading (firstLine (trim s)))))

/-- Lines 42-47 of `summarizeTitle`: whitespace, decoration, capital, the
`"Thread"` fallback and truncation to `MAX = 60`. -/
def finish (tbl : Nat → List Nat) (t : List Nat) : List Nat :=
  let text := capitalize tbl (stripDecor (trim (collapseWs t)))
  if text.length = 0 then threadTitle else truncate text 60

/-- The function `summarizeTitle`.  The argument is the chat message: `none`
is `null`/`undefined`, `some s` a string.  On strings no step of the `try`
block raises, so the `catch` branch is not reached. -/
def summarizeTitle (tbl : Nat → List Nat) (input : Option (List Nat)) : List Nat :=
  match input with
  | none => []
  | some s =>
    if s.length = 0 then []
    else finish tbl (sentenceCut (frontClean s))

/-! ## The stream-chat handlers

One execution of a handler is modelled as the list of effects it performs on
the response and on its collaborators, in order.  The collaborators that are
not part of this file of the sources (`userFromSession`, `reqBody`,
`multiUserMode`, `User.canSendChat`, `streamChatWithWorkspace`,
`WorkspaceThread.autoRenameThread`, `Telemetry.sendTelemetry`,
`EventLogs.logEvent`, `uuidv4`) are represented by what they return or raise
in that execution.  `writeResponseChunk`, `response.json` and `response.end`
themselves are taken not to raise.
-/

/-- The user record, as far as the handlers read it. -/
structure User where
  id : Nat
  dailyMessageLimit : Nat
deriving DecidableEq, Repr

/-- The workspace record, as far as the handlers read it. -/
structure Workspace where
  name : List Nat
  chatMode : Option (List Nat)
  chatModel : Option (List Nat)
deriving DecidableEq, Repr

/-- The thread record, as far as the handlers read it. -/
structure Thread where
  slug : List Nat
  name : List Nat
deriving DecidableEq, Repr

/-- The object `{ id, type, textResponse, sources, close, error }` built by the
handlers (`null` is `none`). -/
structure AbortBody where
  id : List Nat
  type : List Nat
  textResponse : Option (List Nat)
  sources : List (List Nat)
  close : Bool
  error : Option (List Nat)
deriving DecidableEq, Repr

/-- What a handler passes to `writeResponseChunk`. -/
inductive Chunk where
  | abort (body : AbortBody)
  | renameThread (slug : List Nat) (name : List Nat)
deriving DecidableEq, Repr

/-- The observable steps of a handler. -/
inductive Effect where
  /-- Step `response.status(code).json(body)`. -/
  | statusJson (code : Nat) (body : AbortBody)
  /-- Step `response.setHeader(key, value)`. -/
  | setHeader (key : List Nat) (value : List Nat)
  /-- Step `response.flushHeaders()`. -/
  | flushHeaders
  /-- Call of `User.canSendChat(user)`. -/
  | canSendChat (user : Option User)
  /-- Call of `writeResponseChunk(response, chunk)` made by the handler. -/
  | write (chunk : Chunk)
  /-- Call of `streamChatWithWorkspace`. -/
  | engine (workspace : Workspace) (message : List Nat)
      (chatMode : Option (List Nat)) (user : Option User)
      (thread : Option Thread) (attachments : List Nat)
  /-- One chunk written to the response by the engine during its call. -/
  | engineWrite (data : List Nat)
  /-- Call of `WorkspaceThread.autoRenameThread`. -/
  | autoRename (thread : Thread) (workspace : Workspace) (user : Option User)
      (newName : List Nat)
  /-- Call of `Telemetry.sendTelemetry("sent_chat", ...)`; the provider labels
  read from the process environment are left out. -/
  | telemetry (multiUserMode : Bool) (multiModal : Bool)
  /-- Call of `EventLogs.logEvent("sent_chat", ...)`. -/
  | eventLog (workspaceName : List Nat) (thread : Option (List Nat))
      (chatModel : List Nat) (userId : Option Nat)
  /-- Call of `console.error(e)`. -/
  | consoleError (message : List Nat)
  /-- Step `response.end()`. -/
  | finish
deriving DecidableEq, Repr

/-- The request as the handler sees it after `userFromSession`, `reqBody` and
the middleware: `message` is `none` when absent. -/
structure Request where
  user : Option User
  message : Option (List Nat)
  attachments : List Nat
  workspace : Workspace
deriving DecidableEq, Repr

/-- What the collaborators do during one execution: a raised error is given by
its `message`. -/
structure World where
  /-- Value of `uuidv4()`; every path of a handler calls it at most once. -/
  uuid : List Nat
  /-- Value of `multiUserMode(response)`. -/
  multiUserMode : Bool
  /-- Result of `User.canSendChat(user)`. -/
  canSendChat : Except (List Nat) Bool
  /-- Chunks the engine writes during its call. -/
  engineWrites : List (List Nat)
  /-- Error raised by `streamChatWithWorkspace`, if any. -/
  engineError : Option (List Nat)
  /-- Threads with which `autoRenameThread` invokes `onRename`. -/
  renamed : List Thread
  /-- Error raised by `autoRenameThread`, if any. -/
  renameError : Option (List Nat)
  /-- Error raised by `Telemetry.sendTelemetry`, if any. -/
  telemetryError : Option (List Nat)
  /-- Error raised by `EventLogs.logEvent`, if any. -/
  eventLogError : Option (List Nat)

/-- The abort object with the fixed fields of the source. -/
def abortBody (id : List Nat) (error : Option (List Nat)) : AbortBody :=
  { id := id, type := utf16 "abort", textResponse := none, sources := [],
    close := true, error := error }

/-- The test `!message?.length`. -/
def messageEmpty : Option (List Nat) → Bool
  | none => true
  | some m => m.length == 0

/-- Lines 74-78 and 161-165: the event-stream headers. -/
def openStream : List Effect :=
  [ .setHeader (utf16 "Cache-Control") (utf16 "no-cache"),
    .setHeader (utf16 "Content-Type") (utf16 "text/event-stream"),
    .setHeader (utf16 "Access-Control-Allow-Origin") (utf16 "*"),
    .setHeader (utf16 "Connection") (utf16 "keep-alive"),
    .flushHeaders ]

/-- The text of the quota abort, lines 87 and 174. -/
def quotaMessage (limit : Nat) : List Nat :=
  utf16 "You have met your maximum 24 hour chat quota of " ++
    utf16 (toString limit) ++ utf16 " chats. Try again later."

/-- The `TypeError` text of reading `dailyMessageLimit` of a `null` user. -/
def nullUserMessage : List Nat :=
  utf16 "Cannot read properties of null (reading 'dailyMessageLimit')"

/-- Outcome of the condition and body of the quota `if` (lines 80-90 and
167-177). -/
inductive Gate where
  /-- The condition is false: execution goes on to the engine. -/
  | pass (effects : List Effect)
  /-- The body ran and returned from the handler. -/
  | denied (effects : List Effect)
  /-- An error was raised. -/
  | threw (effects : List Effect) (message : List Nat)

/-- Lines 80-90 and 167-177.  `&&` evaluates `User.canSendChat` only in
multi-user mode; the chunk's argument, with `user.dailyMessageLimit`, is
evaluated before `writeResponseChunk` is called. -/
def quotaGate (req : Request) (w : World) : Gate :=
  if w.multiUserMode then
    match w.canSendChat with
    | .error e => .threw [.canSendChat req.user] e
    | .ok true => .pass [.canSendChat req.user]
    | .ok false =>
      match req.user with
      | none => .threw [.canSendChat req.user] nullUserMessage
      | some u =>
        .denied [.canSendChat req.user,
          .write (.abort (abortBody w.uuid (some (quotaMessage u.dailyMessageLimit))))]
  else .pass []

/-- The effects of the call of `streamChatWithWorkspace` and the error it
raises, if any. -/
def runEngine (req : Request) (message : List Nat) (thread : Option Thread)
    (w : World) : List Effect × Option (List Nat) :=
  (.engine req.workspace message req.workspace.chatMode req.user thread
      req.attachments :: w.engineWrites.map .engineWrite,
    w.engineError)

/-- The argument `multiModal` of the telemetry record. -/
def multiModal (attachments : List Nat) : Bool :=
  attachments.length != 0

/-- The value `workspace?.chatModel || "System Default"`. -/
def chatModelLabel (ws : Workspace) : List Nat :=
  match ws.chatModel with
  | some m => if m.length = 0 then utf16 "System Default" else m
  | none => utf16 "System Default"

/-- Lines 101-119 (`thread = none`) and 206-225: telemetry, event log and
`response.end()`, with the error raised on the way, if any. -/
def sendAndEnd (req : Request) (thread : Option Thread) (w : World) :
    List Effect × Option (List Nat) :=
  let tel := Effect.telemetry w.multiUserMode (multiModal req.attachments)
  match w.telemetryError with
  | some e => ([tel], some e)
  | none =>
    let log := Effect.eventLog req.workspace.name (thread.map (·.name))
      (chatModelLabel req.workspace) (req.user.map (·.id))
    match w.eventLogError with
    | some e => ([tel, log], some e)
    | none => ([tel, log, .finish], none)

/-- The `try` block of the workspace handler, lines 58-119: its effects and the
error it raises, if any. -/
def workspaceTry (req : Request) (w : World) : List Effect × Option (List Nat) :=
  if messageEmpty req.message then
    ([.statusJson 400 (abortBody w.uuid (some (utf16 "Message is empty.")))], none)
  else
    let message := req.message.getD []
    match quotaGate req w with
    | .threw es e => (openStream ++ es, some e)
    | .denied es => (openStream ++ es, none)
    | .pass es =>
      match runEngine req message none w with
      | (es2, some e) => (openStream ++ es ++ es2, some e)
      | (es2, none) =>
        let (es3, r) := sendAndEnd req none w
        (openStream ++ es ++ es2 ++ es3, r)

/-- The `catch` block, lines 120-131 and 226-237. -/
def catchBlock (w : World) (e : List Nat) : List Effect :=
  [.consoleError e, .write (.abort (abortBody w.uuid (some e))), .finish]

/-- The handler of `POST /workspace/:slug/stream-chat`. -/
def workspaceStreamChat (req : Request) (w : World) : List Effect :=
  match workspaceTry req w with
  | (es, none) => es
  | (es, some e) => es ++ catchBlock w e

/-- Lines 190-204: the call of `autoRenameThread` with
`newName: summarizeTitle(message)`; every `onRename` writes one
`rename_thread` chunk. -/
def runRename (tbl : Nat → List Nat) (req : Request) (message : List Nat)
    (thread : Thread) (w : World) : List Effect × Option (List Nat) :=
  (.autoRename thread req.workspace req.user (summarizeTitle tbl (some message)) ::
      w.renamed.map (fun t => Effect.write (.renameThread t.slug t.name)),
    w.renameError)

/-- The `try` block of the thread handler, lines 144-225. -/
def threadTry (tbl : Nat → List Nat) (req : Request) (thread : Thread)
    (w : World) : List Effect × Option (List Nat) :=
  if messageEmpty req.message then
    ([.statusJson 400 (abortBody w.uuid (some (utf16 "Message is empty.")))], none)
  else
    let message := req.message.getD []
    match quotaGate req w with
    | .threw es e => (openStream ++ es, some e)
    | .denied es => (openStream ++ es, none)
    | .pass es =>
      match runEngine req message (some thread) w with
      | (es2, some e) => (openStream ++ es ++ es2, some e)
      | (es2, none) =>
        match runRename tbl req message thread w with
        | (es3, some e) => (openStream ++ es ++ es2 ++ es3, some e)
        | (es3, none) =>
          let (es4, r) := sendAndEnd req (some thread) w
          (openStream ++ es ++ es2 ++ es3 ++ es4, r)

/-- The handler of `POST /workspace/:slug/thread/:threadSlug/stream-chat`. -/
def threadStreamChat (tbl : Nat → List Nat) (req : Request) (thread : Thread)
    (w : World) : List Effect :=
  match threadTry tbl req thread w with
  | (es, none) => es
  | (es, some e) => es ++ catchBlock w e

/-! ## Observations on a trace -/

/-- Terminating calls: `response.end()` and the `400` `response.json()`. -/
def isTerminating : Effect → Bool
  | .finish => true
  | .statusJson _ _ => true
  | _ => false

/-- Number of terminating calls in a trace. -/
def terminations (es : List Effect) : Nat :=
  (es.filter isTerminating).length

/-- Calls of `streamChatWithWorkspace`. -/
def isEngineCall : Effect → Bool
  | .engine _ _ _ _ _ _ => true
  | _ => false

/-- Number of engine invocations in a trace. -/
def engineCalls (es : List Effect) : Nat :=
  (es.filter isEngineCall).length

/-- The abort object of an effect that is the handler's write of an abort
chunk. -/
def abortOf : Effect → Option AbortBody
  | .write (.abort b) => some b
  | _ => none

/-- Abort chunks the handler itself writes to the channel, in order. -/
def abortsWritten (es : List Effect) : List AbortBody :=
  es.filterMap abortOf

/-- Everything written to the channel, by the handler or by the engine. -/
def isChannelWrite : Effect → Bool
  | .write _ => true
  | .engineWrite _ => true
  | _ => false

/-- Telemetry sends, event-log records and rename requests. -/
def isSideEffect : Effect → Bool
  | .telemetry _ _ => true
  | .eventLog _ _ _ _ => true
  | .autoRename _ _ _ _ => true
  | _ => false

/-- Header set-up of the event stream. -/
def isHeaderStep : Effect → Bool
  | .setHeader _ _ => true
  | .flushHeaders => true
  | _ => false

/-- Evaluations of the quota gate. -/
def isGateCall : Effect → Bool
  | .canSendChat _ => true
  | _ => false

/-- Upper-case table that leaves every unit outside ASCII unchanged. -/
def plainTable : Nat → List Nat := fun c => [c]

/-- A workspace used in the concrete instances. -/
def sampleWorkspace : Workspace :=
  { name := utf16 "docs", chatMode := some (utf16 "chat"), chatModel := none }

/-- A thread used in the concrete instances. -/
def sampleThread : Thread := { slug := utf16 "t-1", name := utf16 "Thread" }

/-- A user used in the concrete instances. -/
def sampleUser : User := { id := 7, dailyMessageLimit := 10 }

/-- A request with the message `"hello"`. -/
def helloRequest : Request :=
  { user := some sampleUser, message := some (utf16 "hello"), attachments := [],
    workspace := sampleWorkspace }

/-- A request with the empty message. -/
def emptyRequest : Request :=
  { user := some sampleUser, message := some [], attachments := [],
    workspace := sampleWorkspace }

/-- Single-user mode, every collaborator succeeds. -/
def quietWorld : World :=
  { uuid := utf16 "u-1", multiUserMode := false, canSendChat := .ok true,
    engineWrites := [utf16 "hi"], engineError := none, renamed := [],
    renameError := none, telemetryError := none, eventLogError := none }

/-- Multi-user mode with the quota used up. -/
def quotaWorld : World :=
  { quietWorld with multiUserMode := true, canSendChat := .ok false }

/-- The engine raises `"boom"`. -/
def engineFailWorld : World :=
  { quietWorld with engineError := some (utf16 "boom") }

/-- The telemetry send raises `"down"` after the engine has completed. -/
def telemetryFailWorld : World :=
  { quietWorld with telemetryError := some (utf16 "down") }

/-- Did the body of the quota `if` run, that is, did the gate write its abort
chunk and return from the handler? -/
def gateDenies (req : Request) (w : World) : Bool :=
  match quotaGate req w with
  | .denied _ => true
  | _ => false

/-- Does the pattern `https?:\/\/\S+` match somewhere in `l`? -/
def hasUrl : List Nat → Bool
  | [] => false
  | c :: cs => urlStartsAt (c :: cs) || hasUrl cs

/-- Every whitespace run of the text is one single SPACE (unit 32). -/
def singleSpaced : List Nat → Bool
  | [] => true
  | c :: cs =>
    (!isWs c || (c == 32 && (match cs with
      | [] => true
      | d :: _ => !isWs d))) && singleSpaced cs

/-! ## Shapes of inputs used in the statements -/

/-- An ASCII letter. -/
def isLetter (c : Nat) : Bool :=
  (65 ≤ c && c ≤ 90) || (97 ≤ c && c ≤ 122)

/-- The units of `p` are the letters of the lower-case word `w`, each in
either case. -/
def Spells (w p : List Nat) : Prop :=
  p.map foldCase = w

/-- A non-empty run of whitespace without a line feed. -/
def IsGap (g : List Nat) : Prop :=
  g ≠ [] ∧ ∀ c ∈ g, isWs c = true ∧ c ≠ 10

/-- The text `p` spells the words of one opener, in any letter case, with a
gap between two words. -/
def SpellsWords : List (List Nat) → List Nat → Prop
  | [], p => p = []
  | [w], p => Spells w p
  | w :: w2 :: ws, p =>
    ∃ p1 g p2, p = p1 ++ g ++ p2 ∧ Spells w p1 ∧ IsGap g ∧ SpellsWords (w2 :: ws) p2

/-- What may stand between the opener and the rest of the text: at most one
of `:`, `,`, `-`, then whitespace without a line feed; not empty as a whole. -/
def IsSeparator (sep : List Nat) : Prop :=
  sep ≠ [] ∧ ∃ punct gap, sep = punct ++ gap ∧
    (punct = [] ∨ punct = [58] ∨ punct = [44] ∨ punct = [45]) ∧
    ∀ c ∈ gap, isWs c = true ∧ c ≠ 10

/-- The optional `please` in front of the opener: nothing, or the word in any
letter case followed by a gap. -/
def IsPlease (pl : List Nat) : Prop :=
  pl = [] ∨ ∃ pw g, pl = pw ++ g ∧ Spells (utf16 "please") pw ∧ IsGap g

/-- Plain text in the sense of C9: not empty, no line feed, no backtick, no
URL, no sentence terminator, single spaces only, no leading and no trailing
decoration. -/
structure PlainText (r : List Nat) : Prop where
  nonempty : r ≠ []
  noLineFeed : 10 ∉ r
  noTick : 96 ∉ r
  noUrl : hasUrl r = false
  noTerminator : ∀ c ∈ r, isTerminator c = false
  spaced : singleSpaced r = true
  noLead : ∀ c, r.head? = some c → isLeadDecor c = false
  noTrail : ∀ c, r.getLast? = some c → isTrailDecor c = false

/-- All units of a word are small ASCII letters. -/
def lowerWord (w : List Nat) : Bool :=
  w.all (fun x => 97 ≤ x && x ≤ 122)

/-- Every word of an opener is non-empty and made of small letters. -/
def wellFormedAlt (alt : List (List Nat)) : Bool :=
  alt.all (fun w => lowerWord w && !w.isEmpty)

/-- Two lower-case words differ at a position that both have. -/
def clash : List Nat → List Nat → Bool
  | a :: as, b :: bs => a != b || clash as bs
  | _, _ => false

/-- Two openers differ: their first words clash, or these are equal and the
remaining words differ. -/
def altClash : List (List Nat) → List (List Nat) → Bool
  | w :: ws, v :: vs => clash w v || (w == v && altClash ws vs)
  | _, _ => false

/-- No two adjacent units are both `t` (unit 116). -/
def noDoubleT : List Nat → Bool
  | [] => true
  | c :: cs =>
    (match cs with
      | [] => true
      | d :: _ => !(c == 116 && d == 116)) && noDoubleT cs

/-- A few entries of the Unicode upper-case mapping outside ASCII: U+00DF
(sharp s) becomes `SS`, U+017F (long s) becomes `S`, U+0131 (dotless i)
becomes `I`, U+00E9 becomes U+00C9; units not listed are returned unchanged. -/
def latinTable (c : Nat) : List Nat :=
  if c = 223 then [83, 83]
  else if c = 383 then [83]
  else if c = 305 then [73]
  else if c = 233 then [201]
  else [c]

/-- Executable form of `PlainText`. -/
def plainCheck (r : List Nat) : Bool :=
  !r.isEmpty && !decide (10 ∈ r) && !decide (96 ∈ r) && !hasUrl r &&
    r.all (fun c => !isTerminator c) && singleSpaced r &&
    (match r.head? with
      | some c => !isLeadDecor c
      | none => true) &&
    (match r.getLast? with
      | some c => !isTrailDecor c
      | none => true)

/-- A clean title in the sense of C10, the trimmed text being what the function
works on: at most 60 units, a single line, no leading heading marker, no
backtick, no URL, no leading prompt prefix, no leading bullet or dash. -/
structure CleanTitle (x : List Nat) : Prop where
  short : x.length ≤ 60
  singleLine : 10 ∉ x
  noHeading : (trim x).head? ≠ some 35
  noTick : 96 ∉ x
  noUrl : hasUrl x = false
  noPrefix : matchPrefix (trim x) = none
  noLead : ∀ c, (trim x).head? = some c → isLeadDecor c = false

/-- Executable form of `CleanTitle`. -/
def cleanCheck (x : List Nat) : Bool :=
  decide (x.length ≤ 60) && !decide (10 ∈ x) && !decide ((trim x).head? = some 35) &&
    !decide (96 ∈ x) && !hasUrl x && (matchPrefix (trim x)).isNone &&
    (match (trim x).head? with
      | some c => !isLeadDecor c
      | none => true)

/-- A title on which no step of `summarizeTitle` has anything left to do. -/
structure Tidy (tbl : Nat → List Nat) (y : List Nat) : Prop where
  short : y.length ≤ 60
  noLineFeed : 10 ∉ y
  noTick : 96 ∉ y
  noUrl : hasUrl y = false
  noPrefix : matchPrefix y = none
  noCut : sentenceCut y = y
  spaced : singleSpaced y = true
  head : ∃ c cs, y = c :: cs ∧ isLeadDecor c = false ∧ c ≠ 35 ∧ toUpperCase tbl c = [c]
  last : ∃ d, y.getLast? = some d ∧ isTrailDecor d = false

/-- The sentence cut has nothing to do on the text: it has no terminator, or
its first terminator is at index 8 or lower, or is its last unit. -/
def Settled (l : List Nat) : Prop :=
  (∀ u ∈ l, isTerminator u = false) ∨
    ∃ pre z post, l = pre ++ z :: post ∧ (∀ u ∈ pre, isTerminator u = false) ∧
      isTerminator z = true ∧ (pre.length ≤ 8 ∨ post = [])

/-! ## Lemmas on traces -/

theorem filter_map_eq_nil {α β : Type} (p : β → Bool) (f : α → β) (l : List α)
    (h : ∀ a, p (f a) = false) : (l.map f).filter p = [] := by
  induction l with
  | nil => rfl
  | cons a l ih => simp [h a, ih]

theorem filterMap_map_eq_nil {α β γ : Type} (g : β → Option γ) (f : α → β)
    (l : List α) (h : ∀ a, g (f a) = none) : (l.map f).filterMap g = [] := by
  induction l with
  | nil => rfl
  | cons a l ih => simp [h a, ih]

theorem messageEmpty_false {m : Option (List Nat)} (h : messageEmpty m = false) :
    ∃ c cs, m = some (c :: cs) := by
  cases m with
  | none => simp [messageEmpty] at h
  | some l =>
    cases l with
    | nil => simp [messageEmpty] at h
    | cons c cs => exact ⟨c, cs, rfl⟩

/-- The gate lets the request through exactly when multi-user mode is off or
`canSendChat` answers `true`. -/
theorem quotaGate_pass (req : Request) (w : World)
    (h : w.multiUserMode = false ∨ w.canSendChat = .ok true) :
    ∃ es, quotaGate req w = .pass es ∧ es.filter isEngineCall = [] ∧
      es.filterMap abortOf = [] ∧ es.filter isTerminating = [] ∧
      es.filter isSideEffect = [] := by
  unfold quotaGate
  cases hm : w.multiUserMode with
  | false => exact ⟨[], by simp⟩
  | true =>
    rcases h with h | h
    · simp [hm] at h
    · exact ⟨[.canSendChat req.user], by simp [h, isEngineCall, abortOf, isTerminating, isSideEffect]⟩

theorem openStream_engine : openStream.filter isEngineCall = [] := rfl
theorem openStream_aborts : openStream.filterMap abortOf = [] := rfl
theorem openStream_term : openStream.filter isTerminating = [] := rfl
theorem openStream_side : openStream.filter isSideEffect = [] := rfl
theorem openStream_writes : openStream.filter isChannelWrite = [] := rfl

theorem getLast?_append_cons {α : Type} (l : List α) (a : α) (m : List α) :
    (l ++ a :: m).getLast? = (a :: m).getLast? := by
  induction l with
  | nil => rfl
  | cons b l ih =>
    cases l with
    | nil => simp
    | cons c l => simpa using ih

theorem getLast?_cons_append_cons {α : Type} (b : α) (l : List α) (a : α) (m : List α) :
    (b :: (l ++ a :: m)).getLast? = (a :: m).getLast? := by
  rw [← List.cons_append, getLast?_append_cons]

/-! ## The stream-chat handlers: theorems -/

/-- C1: when the message is empty or absent, each stream-chat handler performs
exactly one step, `response.status(400).json(body)` with the body
`{id, type: "abort", textResponse: null, sources: [], close: true,
error: "Message is empty."}`; so no header is set, the quota gate is not
evaluated, the engine is not invoked and neither telemetry nor an event log is
recorded.  When the message is non-empty no `status(...).json(...)` step
occurs at all. -/
theorem C1_empty_message_is_rejected_with_400 (tbl : Nat → List Nat)
    (req : Request) (thread : Thread) (w : World) :
    (messageEmpty req.message = true →
      workspaceStreamChat req w =
          [.statusJson 400
            { id := w.uuid, type := utf16 "abort", textResponse := none,
              sources := [], close := true,
              error := some (utf16 "Message is empty.") }] ∧
        threadStreamChat tbl req thread w =
          [.statusJson 400
            { id := w.uuid, type := utf16 "abort", textResponse := none,
              sources := [], close := true,
              error := some (utf16 "Message is empty.") }]) ∧
    (messageEmpty req.message = false →
      (∀ code body, Effect.statusJson code body ∉ workspaceStreamChat req w) ∧
        (∀ code body,
          Effect.statusJson code body ∉ threadStreamChat tbl req thread w)) := by
  refine ⟨fun h => ?_, fun h => ?_⟩
  · simp [workspaceStreamChat, workspaceTry, threadStreamChat, threadTry, h, abortBody]
  · constructor
    · intro code body
      simp only [workspaceStreamChat, workspaceTry, h, quotaGate, runEngine, sendAndEnd,
        openStream, catchBlock]
      rcases w with ⟨uuid, mu, cs, ew, ee, rn, re, te, le⟩
      cases mu <;> cases ee <;> cases te <;> cases le <;>
        (try rcases cs with _ | (_ | _)) <;> (try cases req.user) <;> simp
    · intro code body
      simp only [threadStreamChat, threadTry, h, quotaGate, runEngine, runRename,
        sendAndEnd, openStream, catchBlock]
      rcases w with ⟨uuid, mu, cs, ew, ee, rn, re, te, le⟩
      cases mu <;> cases ee <;> cases re <;> cases te <;> cases le <;>
        (try rcases cs with _ | (_ | _)) <;> (try cases req.user) <;> simp

/-- Instance of C1 at the empty message and at the message `"hello"`. -/
theorem C1_empty_message_is_rejected_with_400_witness :
    (workspaceStreamChat emptyRequest quietWorld =
        [.statusJson 400
          { id := utf16 "u-1", type := utf16 "abort", textResponse := none,
            sources := [], close := true,
            error := some (utf16 "Message is empty.") }]) ∧
      (∀ code body,
        Effect.statusJson code body ∉ workspaceStreamChat helloRequest quietWorld) :=
  ⟨((C1_empty_message_is_rejected_with_400 plainTable emptyRequest sampleThread
      quietWorld).1 rfl).1,
    ((C1_empty_message_is_rejected_with_400 plainTable helloRequest sampleThread
      quietWorld).2 rfl).1⟩

/-- C2: for a non-empty message the quota gate alone decides whether the
engine runs.  If multi-user mode is off or `User.canSendChat(user)` is true,
each handler invokes the engine exactly once.  If multi-user mode is on and
`User.canSendChat(user)` is false, each handler invokes the engine zero times,
exactly one chunk is written to the channel, the abort chunk whose error text
is the quota sentence with `user.dailyMessageLimit`, and no telemetry,
event-log or rename call is made.  In single-user mode the trace does not
depend on the result of `canSendChat`. -/
theorem C2_quota_gate_decides_engine (tbl : Nat → List Nat) (req : Request)
    (thread : Thread) (w : World) (hmsg : messageEmpty req.message = false) :
    ((w.multiUserMode = false ∨ w.canSendChat = .ok true) →
      engineCalls (workspaceStreamChat req w) = 1 ∧
        engineCalls (threadStreamChat tbl req thread w) = 1) ∧
    (∀ u, w.multiUserMode = true → w.canSendChat = .ok false → req.user = some u →
      (engineCalls (workspaceStreamChat req w) = 0 ∧
        (workspaceStreamChat req w).filter isChannelWrite =
          [.write (.abort
            { id := w.uuid, type := utf16 "abort", textResponse := none,
              sources := [], close := true,
              error := some (utf16 "You have met your maximum 24 hour chat quota of " ++
                utf16 (toString u.dailyMessageLimit) ++
                utf16 " chats. Try again later.") })] ∧
        (workspaceStreamChat req w).filter isSideEffect = []) ∧
      (engineCalls (threadStreamChat tbl req thread w) = 0 ∧
        (threadStreamChat tbl req thread w).filter isChannelWrite =
          [.write (.abort
            { id := w.uuid, type := utf16 "abort", textResponse := none,
              sources := [], close := true,
              error := some (utf16 "You have met your maximum 24 hour chat quota of " ++
                utf16 (toString u.dailyMessageLimit) ++
                utf16 " chats. Try again later.") })] ∧
        (threadStreamChat tbl req thread w).filter isSideEffect = [])) ∧
    (w.multiUserMode = false → ∀ r,
      workspaceStreamChat req { w with canSendChat := r } = workspaceStreamChat req w ∧
        threadStreamChat tbl req thread { w with canSendChat := r } =
          threadStreamChat tbl req thread w) := by
  refine ⟨fun h => ?_, fun u hm hc hu => ?_, fun hm r => ?_⟩
  · obtain ⟨es, hes, h1, -, -, -⟩ := quotaGate_pass req w h
    have hw : (w.engineWrites.map Effect.engineWrite).filter isEngineCall = [] :=
      filter_map_eq_nil _ _ _ (fun _ => rfl)
    have hr : (w.renamed.map
        (fun t => Effect.write (.renameThread t.slug t.name))).filter isEngineCall = [] :=
      filter_map_eq_nil _ _ _ (fun _ => rfl)
    constructor
    · simp only [workspaceStreamChat, workspaceTry, hmsg, hes, runEngine, sendAndEnd,
        catchBlock, engineCalls]
      cases w.engineError <;> cases w.telemetryError <;> cases w.eventLogError <;>
        simp [List.filter_append, h1, hw, openStream_engine, isEngineCall]
    · simp only [threadStreamChat, threadTry, hmsg, hes, runEngine, runRename, sendAndEnd,
        catchBlock, engineCalls]
      cases w.engineError <;> cases w.renameError <;> cases w.telemetryError <;>
        cases w.eventLogError <;>
        simp [List.filter_append, h1, hw, hr, openStream_engine, isEngineCall]
  · simp [workspaceStreamChat, workspaceTry, threadStreamChat, threadTry, hmsg, quotaGate,
      hm, hc, hu, engineCalls, openStream, abortBody, quotaMessage, isEngineCall,
      isChannelWrite, isSideEffect]
  · simp [workspaceStreamChat, workspaceTry, threadStreamChat, threadTry, quotaGate, hm,
      runEngine, runRename, sendAndEnd, catchBlock]

/-- Instance of C2: the engine runs once in single-user mode and not at all
when the quota of a multi-user deployment is used up. -/
theorem C2_quota_gate_decides_engine_witness :
    engineCalls (workspaceStreamChat helloRequest quietWorld) = 1 ∧
      engineCalls (threadStreamChat plainTable helloRequest sampleThread quotaWorld) = 0 :=
  ⟨((C2_quota_gate_decides_engine plainTable helloRequest sampleThread quietWorld
      rfl).1 (Or.inl rfl)).1,
    ((C2_quota_gate_decides_engine plainTable helloRequest sampleThread quotaWorld
      rfl).2.1 sampleUser rfl rfl rfl).2.1⟩

/-- C3 (the code departs from the claim): with a non-empty message, multi-user
mode on and `User.canSendChat(user)` false, each handler opens the stream,
writes the quota abort chunk and returns; the number of terminating calls
(`response.end()` or the 400 `response.json()`) is 0, not 1. -/
theorem C3_quota_denial_never_ends_response :
    workspaceStreamChat helloRequest quotaWorld =
        openStream ++
          [.canSendChat (some sampleUser),
           .write (.abort (abortBody (utf16 "u-1") (some (quotaMessage 10))))] ∧
      terminations (workspaceStreamChat helloRequest quotaWorld) = 0 ∧
      terminations (threadStreamChat plainTable helloRequest sampleThread quotaWorld) = 0 := by
  refine ⟨rfl, ?_, ?_⟩ <;> decide

/-- On every path other than the quota denial (empty message, normal
completion, engine failure, failure of `canSendChat`, failure after the
engine) each handler makes exactly one terminating call; on the quota denial
it makes none. -/
theorem terminations_by_path (tbl : Nat → List Nat) (req : Request)
    (thread : Thread) (w : World) :
    terminations (workspaceStreamChat req w) =
        (if messageEmpty req.message = false ∧ gateDenies req w = true then 0 else 1) ∧
      terminations (threadStreamChat tbl req thread w) =
        (if messageEmpty req.message = false ∧ gateDenies req w = true then 0 else 1) := by
  have hw : (w.engineWrites.map Effect.engineWrite).filter isTerminating = [] :=
    filter_map_eq_nil _ _ _ (fun _ => rfl)
  have hr : (w.renamed.map
      (fun t => Effect.write (.renameThread t.slug t.name))).filter isTerminating = [] :=
    filter_map_eq_nil _ _ _ (fun _ => rfl)
  cases hmsg : messageEmpty req.message with
  | true =>
    simp [workspaceStreamChat, workspaceTry, threadStreamChat, threadTry, hmsg,
      terminations, isTerminating]
  | false =>
    simp only [workspaceStreamChat, workspaceTry, threadStreamChat, threadTry, hmsg,
      gateDenies, quotaGate, runEngine, runRename, sendAndEnd, catchBlock, terminations]
    cases w.multiUserMode <;> cases w.engineError <;> cases w.renameError <;>
      cases w.telemetryError <;> cases w.eventLogError <;>
      (try rcases w.canSendChat with _ | (_ | _)) <;> (try cases req.user) <;>
      simp [List.filter_append, hw, hr, openStream_term, isTerminating]

/-- C4: for a non-empty message that passes the quota gate, when the engine
call raises an error with message `e`, each handler writes exactly one abort
chunk, `{id, type: "abort", textResponse: null, sources: [], close: true,
error: e}`, calls `response.end()` right after writing it and nowhere else,
and makes no telemetry, event-log or rename call. -/
theorem C4_engine_failure_aborts_once (tbl : Nat → List Nat) (req : Request)
    (thread : Thread) (w : World) (e : List Nat)
    (hmsg : messageEmpty req.message = false)
    (hgate : w.multiUserMode = false ∨ w.canSendChat = .ok true)
    (hfail : w.engineError = some e) :
    (abortsWritten (workspaceStreamChat req w) =
        [{ id := w.uuid, type := utf16 "abort", textResponse := none, sources := [],
           close := true, error := some e }] ∧
      (∃ pre, workspaceStreamChat req w =
          pre ++ [.write (.abort
            { id := w.uuid, type := utf16 "abort", textResponse := none, sources := [],
              close := true, error := some e }), .finish] ∧
        pre.filter isTerminating = []) ∧
      (workspaceStreamChat req w).filter isSideEffect = []) ∧
    (abortsWritten (threadStreamChat tbl req thread w) =
        [{ id := w.uuid, type := utf16 "abort", textResponse := none, sources := [],
           close := true, error := some e }] ∧
      (∃ pre, threadStreamChat tbl req thread w =
          pre ++ [.write (.abort
            { id := w.uuid, type := utf16 "abort", textResponse := none, sources := [],
              close := true, error := some e }), .finish] ∧
        pre.filter isTerminating = []) ∧
      (threadStreamChat tbl req thread w).filter isSideEffect = []) := by
  obtain ⟨es, hes, -, h2, h3, h4⟩ := quotaGate_pass req w hgate
  have hw1 : (w.engineWrites.map Effect.engineWrite).filterMap abortOf = [] :=
    filterMap_map_eq_nil _ _ _ (fun _ => rfl)
  have hw2 : (w.engineWrites.map Effect.engineWrite).filter isTerminating = [] :=
    filter_map_eq_nil _ _ _ (fun _ => rfl)
  have hw3 : (w.engineWrites.map Effect.engineWrite).filter isSideEffect = [] :=
    filter_map_eq_nil _ _ _ (fun _ => rfl)
  have hws : workspaceStreamChat req w =
      (openStream ++ es ++
        (.engine req.workspace (req.message.getD []) req.workspace.chatMode req.user none
          req.attachments :: w.engineWrites.map Effect.engineWrite) ++
        [.consoleError e]) ++
      [.write (.abort (abortBody w.uuid (some e))), .finish] := by
    simp [workspaceStreamChat, workspaceTry, hmsg, hes, runEngine, hfail, catchBlock]
  have hth : threadStreamChat tbl req thread w =
      (openStream ++ es ++
        (.engine req.workspace (req.message.getD []) req.workspace.chatMode req.user
          (some thread) req.attachments :: w.engineWrites.map Effect.engineWrite) ++
        [.consoleError e]) ++
      [.write (.abort (abortBody w.uuid (some e))), .finish] := by
    simp [threadStreamChat, threadTry, hmsg, hes, runEngine, hfail, catchBlock]
  refine ⟨⟨?_, ⟨_, hws, ?_⟩, ?_⟩, ⟨?_, ⟨_, hth, ?_⟩, ?_⟩⟩
  · rw [hws]
    simp [abortsWritten, List.filterMap_append, openStream_aborts, h2, hw1, abortOf,
      abortBody]
  · simp [List.filter_append, openStream_term, h3, hw2, isTerminating]
  · rw [hws]
    simp [List.filter_append, openStream_side, h4, hw3, isSideEffect]
  · rw [hth]
    simp [abortsWritten, List.filterMap_append, openStream_aborts, h2, hw1, abortOf,
      abortBody]
  · simp [List.filter_append, openStream_term, h3, hw2, isTerminating]
  · rw [hth]
    simp [List.filter_append, openStream_side, h4, hw3, isSideEffect]

/-- Instance of C4: the engine raises `"boom"` on the message `"hello"`. -/
theorem C4_engine_failure_aborts_once_witness :
    abortsWritten (workspaceStreamChat helloRequest engineFailWorld) =
      [{ id := utf16 "u-1", type := utf16 "abort", textResponse := none, sources := [],
         close := true, error := some (utf16 "boom") }] :=
  (C4_engine_failure_aborts_once plainTable helloRequest sampleThread engineFailWorld
    (utf16 "boom") rfl (Or.inl rfl) rfl).1.1

/-- C7 as stated fails: the engine completes normally on `"hello"`, the
telemetry send then raises `"down"`, and the handler writes an abort chunk
carrying that message to the response channel. -/
theorem C7_post_failure_writes_abort :
    telemetryFailWorld.engineError = none ∧
      telemetryFailWorld.telemetryError = some (utf16 "down") ∧
      abortsWritten (workspaceStreamChat helloRequest telemetryFailWorld) =
        [{ id := utf16 "u-1", type := utf16 "abort", textResponse := none,
           sources := [], close := true, error := some (utf16 "down") }] ∧
      abortsWritten (threadStreamChat plainTable helloRequest sampleThread
          telemetryFailWorld) =
        [{ id := utf16 "u-1", type := utf16 "abort", textResponse := none,
           sources := [], close := true, error := some (utf16 "down") }] := by
  refine ⟨rfl, rfl, ?_, ?_⟩ <;> decide

/-- C7, amended: when the engine call completed normally and the first failure
afterwards (auto-rename, then telemetry, then event log; the workspace handler
has no rename) raises an error with message `e`, each handler writes exactly
one abort chunk, carrying `e`, and the response is still ended: `response.end()`
is called exactly once, as the last step. -/
theorem C7_post_failure_aborts_and_closes (tbl : Nat → List Nat) (req : Request)
    (thread : Thread) (w : World) (e : List Nat)
    (hmsg : messageEmpty req.message = false)
    (hgate : w.multiUserMode = false ∨ w.canSendChat = .ok true)
    (hengine : w.engineError = none) :
    ((w.telemetryError <|> w.eventLogError) = some e →
      abortsWritten (workspaceStreamChat req w) =
          [{ id := w.uuid, type := utf16 "abort", textResponse := none, sources := [],
             close := true, error := some e }] ∧
        terminations (workspaceStreamChat req w) = 1 ∧
        (workspaceStreamChat req w).getLast? = some .finish) ∧
    ((w.renameError <|> w.telemetryError <|> w.eventLogError) = some e →
      abortsWritten (threadStreamChat tbl req thread w) =
          [{ id := w.uuid, type := utf16 "abort", textResponse := none, sources := [],
             close := true, error := some e }] ∧
        terminations (threadStreamChat tbl req thread w) = 1 ∧
        (threadStreamChat tbl req thread w).getLast? = some .finish) := by
  obtain ⟨es, hes, -, h2, h3, -⟩ := quotaGate_pass req w hgate
  have hw1 : (w.engineWrites.map Effect.engineWrite).filterMap abortOf = [] :=
    filterMap_map_eq_nil _ _ _ (fun _ => rfl)
  have hw2 : (w.engineWrites.map Effect.engineWrite).filter isTerminating = [] :=
    filter_map_eq_nil _ _ _ (fun _ => rfl)
  have hr1 : (w.renamed.map
      (fun t => Effect.write (.renameThread t.slug t.name))).filterMap abortOf = [] :=
    filterMap_map_eq_nil _ _ _ (fun _ => rfl)
  have hr2 : (w.renamed.map
      (fun t => Effect.write (.renameThread t.slug t.name))).filter isTerminating = [] :=
    filter_map_eq_nil _ _ _ (fun _ => rfl)
  constructor
  · intro hpost
    simp only [workspaceStreamChat, workspaceTry, hmsg, hes, runEngine, hengine,
      sendAndEnd, catchBlock, terminations, abortsWritten]
    cases ht : w.telemetryError <;> cases hl : w.eventLogError <;>
      simp [ht, hl] at hpost <;>
      simp [hpost, List.filter_append, List.filterMap_append, openStream_aborts,
        openStream_term, h2, h3, hw1, hw2, abortOf, isTerminating, abortBody,
        getLast?_append_cons, getLast?_cons_append_cons]
  · intro hpost
    simp only [threadStreamChat, threadTry, hmsg, hes, runEngine, runRename, hengine,
      sendAndEnd, catchBlock, terminations, abortsWritten]
    cases hn : w.renameError <;> cases ht : w.telemetryError <;>
      cases hl : w.eventLogError <;>
      simp [hn, ht, hl] at hpost <;>
      simp [hpost, List.filter_append, List.filterMap_append, openStream_aborts,
        openStream_term, h2, h3, hw1, hw2, hr1, hr2, abortOf, isTerminating,
        abortBody, getLast?_append_cons, getLast?_cons_append_cons]

/-- Instance of the amended C7: the telemetry send raises `"down"`. -/
theorem C7_post_failure_aborts_and_closes_witness :
    terminations (workspaceStreamChat helloRequest telemetryFailWorld) = 1 :=
  ((C7_post_failure_aborts_and_closes plainTable helloRequest sampleThread
    telemetryFailWorld (utf16 "down") rfl (Or.inl rfl) rfl).1 rfl).2.1

/-! ## summarizeTitle: length, fallback and sentence cut -/

theorem truncate_length_le (l : List Nat) (max : Nat) (hmax : 0 < max) :
    (truncate l max).length ≤ max := by
  unfold truncate
  split
  · assumption
  · rename_i h
    have hk : (l.take (max - 1)).length ≤ max - 1 := by
      rw [List.length_take]; exact Nat.min_le_left _ _
    simp only [List.length_append, List.length_singleton]
    have : ∀ k : List Nat, k.length ≤ max - 1 →
        (match k.getLast? with
          | some u => if 55296 ≤ u ∧ u ≤ 56319 then k.dropLast else k
          | none => k).length ≤ max - 1 := by
      intro k hk
      split
      · split
        · rw [List.length_dropLast]; omega
        · exact hk
      · exact hk
    have := this _ hk
    omega

theorem truncate_of_length_le (l : List Nat) (max : Nat) (h : l.length ≤ max) :
    truncate l max = l := by
  simp [truncate, h]

theorem truncate_ne_nil (l : List Nat) (max : Nat) (h : l ≠ []) :
    truncate l max ≠ [] := by
  unfold truncate
  split
  · exact h
  · simp

theorem finish_length_le (tbl : Nat → List Nat) (t : List Nat) :
    (finish tbl t).length ≤ 60 := by
  unfold finish
  simp only
  split
  · decide
  · exact truncate_length_le _ _ (by decide)

theorem finish_ne_nil (tbl : Nat → List Nat) (t : List Nat) : finish tbl t ≠ [] := by
  unfold finish
  simp only
  split
  · decide
  · rename_i h
    exact truncate_ne_nil _ _ (fun h0 => h (by rw [h0]; rfl))

/-- C5: for every input and every upper-case table, `summarizeTitle` returns a
string of at most 60 code units, the ellipsis marker appended by truncation
included. -/
theorem C5_title_length_at_most_60 (tbl : Nat → List Nat)
    (input : Option (List Nat)) : (summarizeTitle tbl input).length ≤ 60 := by
  unfold summarizeTitle
  cases input with
  | none => simp
  | some s =>
    simp only
    split
    · simp
    · exact finish_length_le _ _

theorem trim_all_ws {s : List Nat} (h : ∀ c ∈ s, isWs c = true) : trim s = [] := by
  have : s.dropWhile isWs = [] := List.dropWhile_eq_nil_iff.mpr h
  simp [trim, this, dropTrailing]

/-- C6 as stated fails: for the empty string and for an absent input the early
`if (!input) return ""` of line 27 returns the empty string, which is neither
non-empty nor `"Thread"`. -/
theorem C6_empty_input_gives_empty_title :
    summarizeTitle plainTable (some []) = [] ∧ summarizeTitle plainTable none = [] ∧
      summarizeTitle plainTable (some []) ≠ utf16 "Thread" ∧
      summarizeTitle plainTable none ≠ utf16 "Thread" := by
  refine ⟨rfl, rfl, ?_, ?_⟩ <;> decide

/-- C6, amended: for every non-empty input string the title is a non-empty
string; it is exactly `"Thread"` whenever whitespace and decoration stripping
leaves nothing of the first line, in particular for every input made of
whitespace only.  For the empty string and for an absent input the result is
the empty string. -/
theorem C6_title_nonempty_with_thread_fallback (tbl : Nat → List Nat) (s : List Nat) :
    (s ≠ [] →
      summarizeTitle tbl (some s) ≠ [] ∧
        (stripDecor (trim (collapseWs (sentenceCut (frontClean s)))) = [] →
          summarizeTitle tbl (some s) = utf16 "Thread") ∧
        ((∀ c ∈ s, isWs c = true) → summarizeTitle tbl (some s) = utf16 "Thread")) ∧
      summarizeTitle tbl (some []) = [] ∧ summarizeTitle tbl none = [] := by
  refine ⟨fun hs => ?_, rfl, rfl⟩
  have hlen : ¬ s.length = 0 := fun h => hs (List.length_eq_zero.mp h)
  have hthread : ∀ t, stripDecor (trim (collapseWs t)) = [] →
      finish tbl t = utf16 "Thread" := by
    intro t ht
    simp only [finish, ht, capitalize, List.length_nil, if_true]
    rfl
  refine ⟨?_, ?_, ?_⟩
  · simp only [summarizeTitle, hlen, if_false]
    exact finish_ne_nil _ _
  · intro h
    simp only [summarizeTitle, hlen, if_false]
    exact hthread _ h
  · intro h
    simp only [summarizeTitle, hlen, if_false, frontClean, trim_all_ws h]
    rfl

/-- Instance of the amended C6: a whitespace-only input gives `"Thread"`. -/
theorem C6_title_nonempty_with_thread_fallback_witness :
    summarizeTitle plainTable (some (utf16 "   ")) ≠ [] ∧
      summarizeTitle plainTable (some (utf16 " \t ")) = utf16 "Thread" :=
  ⟨((C6_title_nonempty_with_thread_fallback plainTable (utf16 "   ")).1 (by decide)).1,
    ((C6_title_nonempty_with_thread_fallback plainTable (utf16 " \t ")).1
      (by decide)).2.2 (by decide)⟩

theorem searchTerminator_some {l : List Nat} {i : Nat}
    (h : searchTerminator l = some i) :
    (∃ c, l[i]? = some c ∧ isTerminator c = true) ∧
      ∀ j d, j < i → l[j]? = some d → isTerminator d = false := by
  induction l generalizing i with
  | nil => simp [searchTerminator] at h
  | cons a l ih =>
    unfold searchTerminator at h
    by_cases ha : isTerminator a = true
    · simp [ha] at h
      subst h
      exact ⟨⟨a, by simp, ha⟩, by intro j d hj; omega⟩
    · simp only [ha, if_false, Option.map_eq_some', Bool.false_eq_true] at h
      obtain ⟨k, hk, rfl⟩ := h
      obtain ⟨⟨c, hc, hct⟩, hbefore⟩ := ih hk
      refine ⟨⟨c, by simpa using hc, hct⟩, ?_⟩
      intro j d hj hd
      cases j with
      | zero =>
        simp at hd
        subst hd
        simpa using ha
      | succ j =>
        simp at hd
        exact hbefore j d (by omega) hd

theorem mem_of_getElem?_eq_some {l : List Nat} {i c : Nat} (h : l[i]? = some c) :
    c ∈ l := by
  obtain ⟨hi, rfl⟩ := List.getElem?_eq_some.mp h
  exact List.getElem_mem hi

theorem searchTerminator_none {l : List Nat} (h : searchTerminator l = none) :
    ∀ c ∈ l, isTerminator c = false := by
  induction l with
  | nil => simp
  | cons a l ih =>
    unfold searchTerminator at h
    by_cases ha : isTerminator a = true
    · simp [ha] at h
    · simp only [ha, if_false, Option.map_eq_none', Bool.false_eq_true] at h
      intro c hc
      rcases List.mem_cons.mp hc with rfl | hc
      · simpa using ha
      · exact ih h c hc

/-- The first terminator is unique: two indices that both hold a terminator
with none before them are equal. -/
theorem first_terminator_unique {l : List Nat} {i k : Nat} {c e : Nat}
    (hi : l[i]? = some c) (hc : isTerminator c = true)
    (hib : ∀ j d, j < i → l[j]? = some d → isTerminator d = false)
    (hk : l[k]? = some e) (he : isTerminator e = true)
    (hkb : ∀ j d, j < k → l[j]? = some d → isTerminator d = false) : i = k := by
  rcases Nat.lt_trichotomy i k with h | h | h
  · have := hkb i c h hi
    simp [hc] at this
  · exact h
  · have := hib k e h hk
    simp [he] at this

/-! ## Lemmas on the string steps -/

theorem dropWhile_eq_self_of_head {p : Nat → Bool} {c : Nat} {l : List Nat}
    (hc : p c = false) : (c :: l).dropWhile p = c :: l := by
  simp [List.dropWhile, hc]

theorem dropTrailing_append_singleton {p : Nat → Bool} {c : Nat} (l : List Nat)
    (hc : p c = false) : dropTrailing p (l ++ [c]) = l ++ [c] := by
  simp [dropTrailing, List.dropWhile, hc]

theorem dropTrailing_eq_self {p : Nat → Bool} {c : Nat} {l : List Nat}
    (hl : l.getLast? = some c) (hc : p c = false) : dropTrailing p l = l := by
  obtain ⟨ys, rfl⟩ := List.getLast?_eq_some_iff.mp hl
  exact dropTrailing_append_singleton ys hc

theorem firstLine_eq_self {l : List Nat} (h : 10 ∉ l) : firstLine l = l := by
  induction l with
  | nil => rfl
  | cons c cs ih =>
    have hc : c ≠ 10 := fun e => h (by simp [e])
    have hcs : 10 ∉ cs := fun e => h (List.mem_cons_of_mem _ e)
    have hh : cs.head? ≠ some 10 := by
      intro e
      cases cs with
      | nil => simp at e
      | cons d ds =>
        simp at e
        exact hcs (by simp [e])
    simp [firstLine, hc, hh, ih hcs]

theorem stripHeading_eq_self {l : List Nat} (h : l.head? ≠ some 35) :
    stripHeading l = l := by
  simp [stripHeading, h]

theorem stripTicks_eq_self {l : List Nat} (h : 96 ∉ l) : stripTicks l = l := by
  unfold stripTicks
  rw [List.filter_eq_self]
  intro a ha
  have : a ≠ 96 := fun e => h (e ▸ ha)
  simpa using this

theorem stripUrls_eq_self {l : List Nat} (h : hasUrl l = false) : stripUrls l = l := by
  unfold stripUrls
  induction l with
  | nil => rfl
  | cons c cs ih =>
    simp only [hasUrl, Bool.or_eq_false_iff] at h
    simp [stripUrlsAux, h.1, ih h.2]

theorem isWs_space : isWs 32 = true := by decide

theorem collapseWs_eq_self {l : List Nat} (h : singleSpaced l = true) :
    collapseWs l = l := by
  unfold collapseWs
  induction l with
  | nil => rfl
  | cons c cs ih =>
    simp only [singleSpaced, Bool.and_eq_true, Bool.or_eq_true, Bool.not_eq_true',
      beq_iff_eq] at h
    obtain ⟨hc, hcs⟩ := h
    rcases hc with hc | ⟨hc32, hnext⟩
    · simp [collapseWsAux, hc, ih hcs]
    · subst hc32
      cases cs with
      | nil => simp [collapseWsAux, isWs_space]
      | cons d ds =>
        have hd : isWs d = false := by simpa using hnext
        have ih' := ih hcs
        simp only [collapseWsAux, hd] at ih'
        simp only [collapseWsAux, isWs_space, hd, if_true]
        simpa using ih'

theorem searchTerminator_eq_none {l : List Nat}
    (h : ∀ c ∈ l, isTerminator c = false) : searchTerminator l = none := by
  induction l with
  | nil => rfl
  | cons c cs ih =>
    have hc := h c (by simp)
    have := ih (fun d hd => h d (List.mem_cons_of_mem _ hd))
    simp [searchTerminator, hc, this]

theorem sentenceCut_eq_self {l : List Nat}
    (h : ∀ c ∈ l, isTerminator c = false) : sentenceCut l = l := by
  simp [sentenceCut, searchTerminator_eq_none h]

theorem trim_eq_self {c d : Nat} {l : List Nat} (hhead : l.head? = some c)
    (hc : isWs c = false) (hlast : l.getLast? = some d) (hd : isWs d = false) :
    trim l = l := by
  unfold trim
  cases l with
  | nil => simp at hhead
  | cons a as =>
    simp at hhead
    subst hhead
    rw [dropWhile_eq_self_of_head hc]
    exact dropTrailing_eq_self hlast hd

theorem stripDecor_eq_self {c d : Nat} {l : List Nat} (hhead : l.head? = some c)
    (hc : isLeadDecor c = false) (hlast : l.getLast? = some d)
    (hd : isTrailDecor d = false) : stripDecor l = l := by
  unfold stripDecor
  cases l with
  | nil => simp at hhead
  | cons a as =>
    simp at hhead
    subst hhead
    rw [dropWhile_eq_self_of_head hc]
    exact dropTrailing_eq_self hlast hd

/-! ## The prompt prefix: lemmas -/

theorem foldCase_letter {c x : Nat} (h : foldCase c = x) (hx : 97 ≤ x ∧ x ≤ 122) :
    isLetter c = true := by
  unfold foldCase at h
  unfold isLetter
  split at h
  · rename_i h1
    simp only [Bool.and_eq_true, decide_eq_true_eq] at h1
    simp [h1.1, h1.2]
  · subst h
    simp [hx.1, hx.2]

theorem isLetter_not_ws {c : Nat} (h : isLetter c = true) : isWs c = false := by
  unfold isLetter at h
  unfold isWs
  simp only [Bool.or_eq_true, Bool.and_eq_true, decide_eq_true_eq] at h
  simp only [Bool.or_eq_false_iff, beq_eq_false_iff_ne, Bool.and_eq_false_iff,
    decide_eq_false_iff_not]
  omega

theorem isLetter_isWord {c : Nat} (h : isLetter c = true) : isWord c = true := by
  unfold isLetter at h
  unfold isWord
  simp only [Bool.or_eq_true, Bool.and_eq_true, decide_eq_true_eq] at h
  simp only [Bool.or_eq_true, Bool.and_eq_true, decide_eq_true_eq, beq_iff_eq]
  omega

theorem spells_letters {w p : List Nat} (h : Spells w p) (hw : lowerWord w = true) :
    ∀ c ∈ p, isLetter c = true := by
  intro c hc
  have hm : foldCase c ∈ w := by
    rw [← h]
    exact List.mem_map_of_mem _ hc
  have := List.all_eq_true.mp hw _ hm
  simp only [Bool.and_eq_true, decide_eq_true_eq] at this
  exact foldCase_letter rfl this

theorem matchLitCI_spells {w p : List Nat} (rest : List Nat) (h : Spells w p) :
    matchLitCI w (p ++ rest) = some rest := by
  induction w generalizing p with
  | nil =>
    have : p = [] := by simpa [Spells] using h
    subst this
    cases rest <;> rfl
  | cons a w ih =>
    cases p with
    | nil => simp [Spells] at h
    | cons c cs =>
      simp only [Spells, List.map_cons, List.cons.injEq] at h
      simp [matchLitCI, h.1, ih h.2]

theorem matchLitCI_clash {w v p : List Nat} (rest : List Nat)
    (hc : clash w v = true) (h : Spells v p) : matchLitCI w (p ++ rest) = none := by
  induction w generalizing v p with
  | nil => simp [clash] at hc
  | cons a w ih =>
    cases v with
    | nil => simp [clash] at hc
    | cons b v =>
      cases p with
      | nil => simp [Spells] at h
      | cons c cs =>
        simp only [Spells, List.map_cons, List.cons.injEq] at h
        simp only [clash, Bool.or_eq_true, bne_iff_ne, ne_eq] at hc
        by_cases hab : a = b
        · subst hab
          have hc' : clash w v = true := by
            rcases hc with hc | hc
            · exact absurd rfl hc
            · exact hc
          simp [matchLitCI, h.1, ih hc' h.2]
        · have : ¬ foldCase c = a := by
            rw [h.1]
            exact fun e => hab e.symm
          simp [matchLitCI, this]

theorem dropWhile_ws_append {g rest : List Nat} (hg : ∀ c ∈ g, isWs c = true)
    (hrest : ∀ c, rest.head? = some c → isWs c = false) :
    (g ++ rest).dropWhile isWs = rest := by
  induction g with
  | nil =>
    cases rest with
    | nil => rfl
    | cons c cs => exact dropWhile_eq_self_of_head (hrest c rfl)
  | cons a g ih =>
    have ha := hg a (by simp)
    simp only [List.cons_append, List.dropWhile, ha]
    exact ih (fun c hc => hg c (List.mem_cons_of_mem _ hc))

theorem matchWsPlus_run {g rest : List Nat} (hne : g ≠ [])
    (hall : ∀ c ∈ g, isWs c = true)
    (hrest : ∀ c, rest.head? = some c → isWs c = false) :
    matchWsPlus (g ++ rest) = some rest := by
  cases g with
  | nil => exact absurd rfl hne
  | cons a g =>
    have ha := hall a (by simp)
    simp only [List.cons_append, matchWsPlus, ha, if_true, Option.some.injEq]
    exact dropWhile_ws_append (fun c hc => hall c (List.mem_cons_of_mem _ hc)) hrest

theorem matchWsPlus_gap {g rest : List Nat} (hg : IsGap g)
    (hrest : ∀ c, rest.head? = some c → isWs c = false) :
    matchWsPlus (g ++ rest) = some rest :=
  matchWsPlus_run hg.1 (fun c hc => (hg.2 c hc).1) hrest

theorem wellFormedAlt_cons {w : List Nat} {ws : List (List Nat)}
    (h : wellFormedAlt (w :: ws) = true) :
    lowerWord w = true ∧ w ≠ [] ∧ wellFormedAlt ws = true := by
  simp only [wellFormedAlt, List.all_cons, Bool.and_eq_true, Bool.not_eq_true',
    List.isEmpty_eq_false] at h
  refine ⟨h.1.1, ?_, ?_⟩
  · intro e
    have := h.1.2
    simp [e] at this
  · simpa [wellFormedAlt] using h.2

theorem spells_head {w p : List Nat} (h : Spells w p) (hw : lowerWord w = true)
    (hne : w ≠ []) : ∃ c cs, p = c :: cs ∧ isLetter c = true := by
  cases p with
  | nil =>
    simp only [Spells, List.map_nil] at h
    exact absurd h.symm hne
  | cons c cs => exact ⟨c, cs, rfl, spells_letters h hw c (by simp)⟩

theorem spellsWords_head {alt : List (List Nat)} {op : List Nat}
    (h : SpellsWords alt op) (hwf : wellFormedAlt alt = true) (hne : alt ≠ []) :
    ∃ c cs, op = c :: cs ∧ isLetter c = true := by
  cases alt with
  | nil => exact absurd rfl hne
  | cons w ws =>
    obtain ⟨hl, hn, -⟩ := wellFormedAlt_cons hwf
    cases ws with
    | nil => exact spells_head h hl hn
    | cons w2 ws =>
      obtain ⟨p1, g, p2, rfl, h1, -, -⟩ := h
      obtain ⟨c, cs, rfl, hc⟩ := spells_head h1 hl hn
      exact ⟨c, cs ++ g ++ p2, by simp, hc⟩

theorem matchWords_spells {alt : List (List Nat)} {op : List Nat} (rest : List Nat)
    (hwf : wellFormedAlt alt = true) (h : SpellsWords alt op) :
    matchWords alt (op ++ rest) = some rest := by
  induction alt generalizing op with
  | nil =>
    have : op = [] := h
    subst this
    simp [matchWords]
  | cons w ws ih =>
    obtain ⟨-, -, hws⟩ := wellFormedAlt_cons hwf
    cases ws with
    | nil =>
      have h1 : Spells w op := h
      simp [matchWords, matchLitCI_spells rest h1]
    | cons w2 ws =>
      obtain ⟨p1, g, p2, rfl, h1, hg, h2⟩ := h
      obtain ⟨c, cs, hp2, hc⟩ := spellsWords_head h2 hws (by simp)
      have hstep : matchWsPlus (g ++ (p2 ++ rest)) = some (p2 ++ rest) := by
        apply matchWsPlus_gap hg
        intro d hd
        rw [hp2] at hd
        simp at hd
        subst hd
        exact isLetter_not_ws hc
      have h1' := matchLitCI_spells (g ++ (p2 ++ rest)) h1
      simp only [List.append_assoc]
      simp only [matchWords, h1', hstep]
      exact ih hws h2

theorem matchWords_clash {a b : List (List Nat)} {op : List Nat} (rest : List Nat)
    (hc : altClash a b = true) (hwf : wellFormedAlt b = true)
    (h : SpellsWords b op) : matchWords a (op ++ rest) = none := by
  induction a generalizing b op with
  | nil => simp [altClash] at hc
  | cons w ws ih =>
    cases b with
    | nil => simp [altClash] at hc
    | cons v vs =>
      obtain ⟨-, -, hvs⟩ := wellFormedAlt_cons hwf
      simp only [altClash, Bool.or_eq_true, Bool.and_eq_true, beq_iff_eq] at hc
      -- the first word of the text
      have hfirst : ∃ p1 t, op = p1 ++ t ∧ Spells v p1 ∧
          (vs ≠ [] → ∃ g p2, t = g ++ p2 ∧ IsGap g ∧ SpellsWords vs p2) := by
        cases vs with
        | nil => exact ⟨op, [], by simp, h, fun e => absurd rfl e⟩
        | cons v2 vs =>
          obtain ⟨p1, g, p2, rfl, h1, hg, h2⟩ := h
          exact ⟨p1, g ++ p2, by simp, h1, fun _ => ⟨g, p2, rfl, hg, h2⟩⟩
      obtain ⟨p1, t, rfl, h1, htail⟩ := hfirst
      rcases hc with hc | ⟨hwv, hc⟩
      · have hnone := matchLitCI_clash (t ++ rest) hc h1
        simp only [List.append_assoc]
        cases ws with
        | nil => simp [matchWords, hnone]
        | cons w2 ws => simp [matchWords, hnone]
      · subst hwv
        cases ws with
        | nil => simp [altClash] at hc
        | cons w2 ws =>
          cases vs with
          | nil => simp [altClash] at hc
          | cons v2 vs =>
            obtain ⟨g, p2, rfl, hg, h2⟩ := htail (by simp)
            obtain ⟨c, cs, hp2, hcl⟩ := spellsWords_head h2 hvs (by simp)
            have hstep : matchWsPlus (g ++ (p2 ++ rest)) = some (p2 ++ rest) := by
              apply matchWsPlus_gap hg
              intro d hd
              rw [hp2] at hd
              simp at hd
              subst hd
              exact isLetter_not_ws hcl
            have h1' := matchLitCI_spells (g ++ (p2 ++ rest)) h1
            simp only [List.append_assoc]
            simp only [matchWords, h1', hstep]
            exact ih hc hvs h2

theorem openers_wellFormed : ∀ alt ∈ openers, wellFormedAlt alt = true := by
  decide

theorem openers_ne_nil : ∀ alt ∈ openers, alt ≠ [] := by
  decide

theorem openers_distinct :
    ∀ a ∈ openers, ∀ b ∈ openers, a = b ∨ altClash a b = true := by
  decide

theorem openers_not_please :
    ∀ alt ∈ openers, altClash [utf16 "please"] alt = true := by
  decide

theorem openers_noDoubleT : ∀ alt ∈ openers, ∀ w ∈ alt, noDoubleT w = true := by
  decide

theorem matchOpenerFrom_spells {alts : List (List (List Nat))}
    {alt : List (List Nat)} {op : List Nat} (rest : List Nat)
    (hmem : alt ∈ alts) (hdist : ∀ a ∈ alts, a = alt ∨ altClash a alt = true)
    (hwf : wellFormedAlt alt = true) (h : SpellsWords alt op)
    (hend : atWordEnd rest = true) :
    matchOpenerFrom alts (op ++ rest) = some rest := by
  induction alts with
  | nil => simp at hmem
  | cons a alts ih =>
    by_cases ha : a = alt
    · subst ha
      simp [matchOpenerFrom, matchOpenerAlt, matchWords_spells rest hwf h, hend]
    · have hcl : altClash a alt = true := by
        rcases hdist a (by simp) with e | e
        · exact absurd e ha
        · exact e
      have hmem' : alt ∈ alts := by
        rcases List.mem_cons.mp hmem with e | e
        · exact absurd e.symm ha
        · exact e
      simp only [matchOpenerFrom, matchOpenerAlt, matchWords_clash rest hcl hwf h]
      exact ih hmem' (fun b hb => hdist b (List.mem_cons_of_mem _ hb))

theorem matchOpener_spells {alt : List (List Nat)} {op : List Nat} (rest : List Nat)
    (hmem : alt ∈ openers) (h : SpellsWords alt op) (hend : atWordEnd rest = true) :
    matchOpener (op ++ rest) = some rest :=
  matchOpenerFrom_spells rest hmem (fun a ha => openers_distinct a ha alt hmem)
    (openers_wellFormed alt hmem) h hend

theorem matchPlease_opener {alt : List (List Nat)} {op : List Nat} (rest : List Nat)
    (hmem : alt ∈ openers) (h : SpellsWords alt op) :
    matchPlease (op ++ rest) = none := by
  have := matchWords_clash rest (openers_not_please alt hmem)
    (openers_wellFormed alt hmem) h
  simp only [matchWords] at this
  simp [matchPlease, this]

theorem matchPlease_please {pw g rest : List Nat} (hpw : Spells (utf16 "please") pw)
    (hg : IsGap g) (hrest : ∀ c, rest.head? = some c → isWs c = false) :
    matchPlease (pw ++ g ++ rest) = some rest := by
  have h1 := matchLitCI_spells (g ++ rest) hpw
  simp only [List.append_assoc]
  simp only [matchPlease, h1]
  exact matchWsPlus_gap hg hrest

theorem dropPunct_separator {sep r : List Nat} (hsep : IsSeparator sep)
    (hr : ∀ c, r.head? = some c → isWs c = false) :
    (dropPunct (sep ++ r)).dropWhile isWs = r ∧ atWordEnd (sep ++ r) = true := by
  obtain ⟨hne, punct, gap, rfl, hp, hgap⟩ := hsep
  have hgapws : ∀ c ∈ gap, isWs c = true := fun c hc => (hgap c hc).1
  have hdrop := dropWhile_ws_append hgapws hr
  rcases hp with rfl | rfl | rfl | rfl
  · cases gap with
    | nil => simp at hne
    | cons a gap =>
      have ha : isWs a = true := hgapws a (by simp)
      have hnp : ¬ (a = 58 ∨ a = 44 ∨ a = 45) := by
        intro e
        rcases e with e | e | e <;> subst e <;> simp [isWs] at ha
      have hnw : isWord a = false := by
        cases hw : isWord a with
        | false => rfl
        | true =>
          exfalso
          unfold isWs at ha
          unfold isWord at hw
          simp only [Bool.or_eq_true, Bool.and_eq_true, decide_eq_true_eq,
            beq_iff_eq] at ha hw
          omega
      constructor
      · simp only [List.nil_append, List.cons_append, dropPunct, hnp, if_false]
        simpa using hdrop
      · simp [atWordEnd, hnw]
  · exact ⟨by simpa [dropPunct] using hdrop, by simp [atWordEnd, isWord]⟩
  · exact ⟨by simpa [dropPunct] using hdrop, by simp [atWordEnd, isWord]⟩
  · exact ⟨by simpa [dropPunct] using hdrop, by simp [atWordEnd, isWord]⟩

theorem head_letter_dropWhile {c : Nat} {cs : List Nat} (hc : isLetter c = true) :
    (c :: cs).dropWhile isWs = c :: cs :=
  dropWhile_eq_self_of_head (isLetter_not_ws hc)

/-- The prefix pattern removes exactly `pl ++ op ++ sep`. -/
theorem matchPrefix_shape {alt : List (List Nat)} {pl op sep r : List Nat}
    (hmem : alt ∈ openers) (hpl : IsPlease pl) (hop : SpellsWords alt op)
    (hsep : IsSeparator sep) (hr : ∀ c, r.head? = some c → isWs c = false) :
    matchPrefix (pl ++ op ++ sep ++ r) = some r := by
  obtain ⟨hdrop, hend⟩ := dropPunct_separator hsep hr
  have hop' := matchOpener_spells (sep ++ r) hmem hop hend
  obtain ⟨c, cs, hopc, hcl⟩ :=
    spellsWords_head hop (openers_wellFormed alt hmem) (openers_ne_nil alt hmem)
  rcases hpl with rfl | ⟨pw, g, rfl, hpw, hg⟩
  · have hl0 : ([] ++ op ++ sep ++ r).dropWhile isWs = op ++ (sep ++ r) := by
      rw [hopc]
      simpa using @head_letter_dropWhile _ (cs ++ (sep ++ r)) hcl
    simp only [matchPrefix, hl0, matchPlease_opener (sep ++ r) hmem hop, hop', hdrop]
  · obtain ⟨d, ds, hpwd, hdl⟩ := spells_head hpw (by decide) (by decide)
    have hl0 : (pw ++ g ++ op ++ sep ++ r).dropWhile isWs =
        pw ++ g ++ (op ++ (sep ++ r)) := by
      rw [hpwd]
      simpa using @head_letter_dropWhile _ (ds ++ (g ++ (op ++ (sep ++ r)))) hdl
    have hpls : matchPlease (pw ++ g ++ (op ++ (sep ++ r))) = some (op ++ (sep ++ r)) := by
      apply matchPlease_please hpw hg
      intro e he
      rw [hopc] at he
      simp at he
      subst he
      exact isLetter_not_ws hcl
    simp only [matchPrefix, hl0, hpls, hop', hdrop]

/-! ## No URL begins inside the prompt prefix -/

theorem matchLit_some {pat l r : List Nat} (h : matchLit pat l = some r) :
    l = pat ++ r := by
  induction pat generalizing l with
  | nil =>
    cases l <;> simp [matchLit] at h <;> simp [h]
  | cons p ps ih =>
    cases l with
    | nil => simp [matchLit] at h
    | cons c cs =>
      simp only [matchLit] at h
      split at h
      · rename_i hc
        rw [ih h, hc]
        rfl
      · simp at h

theorem urlStartsAt_true {l : List Nat} (h : urlStartsAt l = true) :
    ∃ t, l = 104 :: 116 :: 116 :: 112 :: t := by
  unfold urlStartsAt at h
  cases hm : matchLit [104, 116, 116, 112] l with
  | none => simp [hm] at h
  | some r => exact ⟨r, by simpa using matchLit_some hm⟩

theorem noDoubleT_tail {a : Nat} {w : List Nat} (h : noDoubleT (a :: w) = true) :
    noDoubleT w = true := by
  simp only [noDoubleT, Bool.and_eq_true] at h
  exact h.2

theorem stripUrlsAux_false_cons (c : Nat) (cs : List Nat)
    (h : urlStartsAt (c :: cs) = false) :
    stripUrlsAux false (c :: cs) = c :: stripUrlsAux false cs := by
  simp [stripUrlsAux, h]

theorem stripUrlsAux_word {w p : List Nat} (x : Nat) (rest : List Nat)
    (h : Spells w p) (hw : noDoubleT w = true) (hx : x ≠ 116) :
    stripUrlsAux false (p ++ x :: rest) = p ++ stripUrlsAux false (x :: rest) := by
  induction p generalizing w with
  | nil => rfl
  | cons c cs ih =>
    cases w with
    | nil => simp [Spells] at h
    | cons a w =>
      simp only [Spells, List.map_cons, List.cons.injEq] at h
      have hno : urlStartsAt (c :: (cs ++ x :: rest)) = false := by
        cases hu : urlStartsAt (c :: (cs ++ x :: rest)) with
        | false => rfl
        | true =>
          exfalso
          obtain ⟨t, ht⟩ := urlStartsAt_true hu
          cases cs with
          | nil =>
            simp only [List.nil_append, List.cons.injEq] at ht
            exact hx ht.2.1
          | cons d cs =>
            cases cs with
            | nil =>
              simp only [List.cons_append, List.nil_append, List.cons.injEq] at ht
              exact hx ht.2.2.1
            | cons e cs =>
              simp only [List.cons_append, List.cons.injEq] at ht
              obtain ⟨-, hd, he, -⟩ := ht
              subst hd he
              have h2 := h.2
              simp only [List.map_cons] at h2
              rw [← h2] at hw
              simp [noDoubleT, foldCase] at hw
      rw [List.cons_append, stripUrlsAux_false_cons _ _ hno, ih h.2 (noDoubleT_tail hw)]
      rfl

theorem stripUrlsAux_plain (g rest : List Nat) (hg : ∀ c ∈ g, c ≠ 104) :
    stripUrlsAux false (g ++ rest) = g ++ stripUrlsAux false rest := by
  induction g with
  | nil => rfl
  | cons c cs ih =>
    have hno : urlStartsAt (c :: (cs ++ rest)) = false := by
      cases hu : urlStartsAt (c :: (cs ++ rest)) with
      | false => rfl
      | true =>
        exfalso
        obtain ⟨t, ht⟩ := urlStartsAt_true hu
        simp only [List.cons.injEq] at ht
        exact hg c (by simp) ht.1
    rw [List.cons_append, stripUrlsAux_false_cons _ _ hno,
      ih (fun d hd => hg d (List.mem_cons_of_mem _ hd))]
    rfl

theorem ws_ne_letters {c : Nat} (h : isWs c = true) :
    c ≠ 104 ∧ c ≠ 116 ∧ c ≠ 96 ∧ c ≠ 35 := by
  unfold isWs at h
  simp only [Bool.or_eq_true, Bool.and_eq_true, decide_eq_true_eq, beq_iff_eq] at h
  omega

theorem gap_head {g : List Nat} (hg : IsGap g) :
    ∃ x t, g = x :: t ∧ isWs x = true := by
  obtain ⟨hne, hall⟩ := hg
  cases g with
  | nil => exact absurd rfl hne
  | cons x t => exact ⟨x, t, rfl, (hall x (by simp)).1⟩

theorem stripUrlsAux_words {alt : List (List Nat)} {op : List Nat} (x : Nat)
    (rest : List Nat) (h : SpellsWords alt op)
    (hw : ∀ w ∈ alt, noDoubleT w = true) (hx : x ≠ 116) :
    stripUrlsAux false (op ++ x :: rest) = op ++ stripUrlsAux false (x :: rest) := by
  induction alt generalizing op with
  | nil =>
    have : op = [] := h
    subst this
    rfl
  | cons w ws ih =>
    cases ws with
    | nil => exact stripUrlsAux_word x rest h (hw w (by simp)) hx
    | cons w2 ws =>
      obtain ⟨p1, g, p2, rfl, h1, hg, h2⟩ := h
      obtain ⟨y, t, rfl, hy⟩ := gap_head hg
      have hgall : ∀ c ∈ y :: t, c ≠ 104 := fun c hc => (ws_ne_letters (hg.2 c hc).1).1
      have e1 := stripUrlsAux_word y (t ++ (p2 ++ x :: rest)) h1 (hw w (by simp))
        (ws_ne_letters hy).2.1
      have e2 := stripUrlsAux_plain (y :: t) (p2 ++ x :: rest) hgall
      have e3 := ih h2 (fun v hv => hw v (List.mem_cons_of_mem _ hv))
      simp only [List.append_assoc, List.cons_append] at e1 e2 ⊢
      rw [e1, e2, e3]

theorem separator_units {sep : List Nat} (hsep : IsSeparator sep) :
    (∃ x t, sep = x :: t ∧ x ≠ 116) ∧
      ∀ c ∈ sep, c ≠ 104 ∧ c ≠ 10 ∧ c ≠ 96 := by
  obtain ⟨hne, punct, gap, rfl, hp, hgap⟩ := hsep
  have hall : ∀ c ∈ punct ++ gap, c ≠ 104 ∧ c ≠ 10 ∧ c ≠ 96 ∧ c ≠ 116 := by
    intro c hc
    rcases List.mem_append.mp hc with hc | hc
    · rcases hp with rfl | rfl | rfl | rfl <;> simp at hc <;> subst hc <;> decide
    · obtain ⟨h1, h2⟩ := hgap c hc
      have := ws_ne_letters h1
      exact ⟨this.1, h2, this.2.2.1, this.2.1⟩
  constructor
  · cases hs : punct ++ gap with
    | nil => exact absurd hs hne
    | cons x t =>
      refine ⟨x, t, rfl, ?_⟩
      have := hall x (by rw [hs]; simp)
      exact this.2.2.2
  · intro c hc
    have := hall c hc
    exact ⟨this.1, this.2.1, this.2.2.1⟩

theorem letter_ne {c : Nat} (h : isLetter c = true) :
    c ≠ 10 ∧ c ≠ 96 ∧ c ≠ 35 := by
  unfold isLetter at h
  simp only [Bool.or_eq_true, Bool.and_eq_true, decide_eq_true_eq] at h
  omega

theorem spellsWords_units {alt : List (List Nat)} {op : List Nat}
    (h : SpellsWords alt op) (hwf : wellFormedAlt alt = true) :
    ∀ c ∈ op, c ≠ 10 ∧ c ≠ 96 := by
  induction alt generalizing op with
  | nil =>
    have : op = [] := h
    subst this
    simp
  | cons w ws ih =>
    obtain ⟨hl, -, hws⟩ := wellFormedAlt_cons hwf
    cases ws with
    | nil =>
      intro c hc
      have := letter_ne (spells_letters h hl c hc)
      exact ⟨this.1, this.2.1⟩
    | cons w2 ws =>
      obtain ⟨p1, g, p2, rfl, h1, hg, h2⟩ := h
      intro c hc
      simp only [List.mem_append] at hc
      rcases hc with (hc | hc) | hc
      · have := letter_ne (spells_letters h1 hl c hc)
        exact ⟨this.1, this.2.1⟩
      · exact ⟨(hg.2 c hc).2, (ws_ne_letters (hg.2 c hc).1).2.2.1⟩
      · exact ih h2 hws c hc

theorem please_units {pl : List Nat} (hpl : IsPlease pl) :
    ∀ c ∈ pl, c ≠ 10 ∧ c ≠ 96 := by
  rcases hpl with rfl | ⟨pw, g, rfl, hpw, hg⟩
  · simp
  · intro c hc
    rcases List.mem_append.mp hc with hc | hc
    · have := letter_ne (spells_letters hpw (by decide) c hc)
      exact ⟨this.1, this.2.1⟩
    · exact ⟨(hg.2 c hc).2, (ws_ne_letters (hg.2 c hc).1).2.2.1⟩

theorem stripUrlsAux_please {pl : List Nat} (x : Nat) (rest : List Nat)
    (hpl : IsPlease pl) :
    stripUrlsAux false (pl ++ x :: rest) = pl ++ stripUrlsAux false (x :: rest) := by
  rcases hpl with rfl | ⟨pw, g, rfl, hpw, hg⟩
  · rfl
  · obtain ⟨y, t, rfl, hy⟩ := gap_head hg
    have hgall : ∀ c ∈ y :: t, c ≠ 104 := fun c hc => (ws_ne_letters (hg.2 c hc).1).1
    have e1 := stripUrlsAux_word y (t ++ x :: rest) hpw (by decide) (ws_ne_letters hy).2.1
    have e2 := stripUrlsAux_plain (y :: t) (x :: rest) hgall
    simp only [List.append_assoc, List.cons_append] at e1 e2 ⊢
    rw [e1, e2]

theorem trailDecor_of_ws {c : Nat} (h : isTrailDecor c = false) : isWs c = false := by
  unfold isTrailDecor at h
  simp only [Bool.or_eq_false_iff] at h
  exact h.1.1.1.1

theorem leadDecor_of_ws {c : Nat} (h : isLeadDecor c = false) : isWs c = false := by
  unfold isLeadDecor at h
  simp only [Bool.or_eq_false_iff] at h
  exact h.2

theorem plain_head {r : List Nat} (hr : PlainText r) :
    ∃ c cs, r = c :: cs ∧ isLeadDecor c = false := by
  cases h : r with
  | nil => exact absurd h hr.nonempty
  | cons c cs => exact ⟨c, cs, rfl, hr.noLead c (by rw [h]; rfl)⟩

theorem plain_last {r : List Nat} (hr : PlainText r) :
    ∃ d, r.getLast? = some d ∧ isTrailDecor d = false := by
  cases h : r.getLast? with
  | none => exact absurd (List.getLast?_eq_none_iff.mp h) hr.nonempty
  | some d => exact ⟨d, rfl, hr.noTrail d h⟩

theorem getLast?_append_of_ne_nil {a r : List Nat} (hr : r ≠ []) :
    (a ++ r).getLast? = r.getLast? := by
  cases r with
  | nil => exact absurd rfl hr
  | cons c cs => exact getLast?_append_cons a c cs

/-- The steps up to the prefix pattern remove exactly `pl ++ op ++ sep`. -/
theorem frontClean_shape {alt : List (List Nat)} {pl op sep r : List Nat}
    (hmem : alt ∈ openers) (hpl : IsPlease pl) (hop : SpellsWords alt op)
    (hsep : IsSeparator sep) (hr : PlainText r) :
    frontClean (pl ++ op ++ sep ++ r) = r := by
  obtain ⟨c, cs, hrc, hlead⟩ := plain_head hr
  obtain ⟨d, hlast, htrail⟩ := plain_last hr
  have hwf := openers_wellFormed alt hmem
  obtain ⟨o, os, hopc, hol⟩ := spellsWords_head hop hwf (openers_ne_nil alt hmem)
  -- the first unit of the input is a letter
  have hhead : ∃ a, (pl ++ op ++ sep ++ r).head? = some a ∧ isLetter a = true := by
    rcases hpl with rfl | ⟨pw, g, rfl, hpw, hg⟩
    · exact ⟨o, by rw [hopc]; rfl, hol⟩
    · obtain ⟨p, ps, hpwd, hpl⟩ := spells_head hpw (by decide) (by decide)
      exact ⟨p, by rw [hpwd]; rfl, hpl⟩
  obtain ⟨a, ha, hal⟩ := hhead
  have hlast' : (pl ++ op ++ sep ++ r).getLast? = some d := by
    rw [getLast?_append_of_ne_nil hr.nonempty, hlast]
  have hunits : ∀ u ∈ pl ++ op ++ sep ++ r, u ≠ 10 ∧ u ≠ 96 := by
    intro u hu
    simp only [List.mem_append] at hu
    rcases hu with ((hu | hu) | hu) | hu
    · exact please_units hpl u hu
    · exact spellsWords_units hop hwf u hu
    · have := (separator_units hsep).2 u hu
      exact ⟨this.2.1, this.2.2⟩
    · exact ⟨fun e => hr.noLineFeed (e ▸ hu), fun e => hr.noTick (e ▸ hu)⟩
  have h1 : trim (pl ++ op ++ sep ++ r) = pl ++ op ++ sep ++ r :=
    trim_eq_self ha (isLetter_not_ws hal) hlast' (trailDecor_of_ws htrail)
  have h2 : firstLine (pl ++ op ++ sep ++ r) = pl ++ op ++ sep ++ r :=
    firstLine_eq_self (fun h => (hunits 10 h).1 rfl)
  have h3 : stripHeading (pl ++ op ++ sep ++ r) = pl ++ op ++ sep ++ r := by
    apply stripHeading_eq_self
    rw [ha]
    intro e
    simp only [Option.some.injEq] at e
    exact (letter_ne hal).2.2 e
  have h4 : stripTicks (pl ++ op ++ sep ++ r) = pl ++ op ++ sep ++ r :=
    stripTicks_eq_self (fun h => (hunits 96 h).2 rfl)
  have h5 : stripUrls (pl ++ op ++ sep ++ r) = pl ++ op ++ sep ++ r := by
    obtain ⟨⟨x, t, hsx, hx⟩, hsall⟩ := separator_units hsep
    have e1 := stripUrlsAux_please o (os ++ (x :: t) ++ r) hpl
    have e2 := stripUrlsAux_words x (t ++ r) hop (openers_noDoubleT alt hmem) hx
    have e3 := stripUrlsAux_plain sep r (fun u hu => (hsall u hu).1)
    have e4 : stripUrlsAux false r = r := stripUrls_eq_self hr.noUrl
    unfold stripUrls
    rw [hopc] at e2 ⊢
    rw [hsx] at e3 ⊢
    simp only [List.append_assoc, List.cons_append] at e1 e2 e3 ⊢
    rw [e1, e2, e3, e4]
  have h6 : stripPrefix (pl ++ op ++ sep ++ r) = r := by
    have := matchPrefix_shape hmem hpl hop hsep
      (r := r) (fun u hu => by
        rw [hrc] at hu
        simp only [List.head?_cons, Option.some.injEq] at hu
        subst hu
        exact leadDecor_of_ws hlead)
    unfold stripPrefix
    rw [this]
  unfold frontClean
  rw [h1, h2, h3, h4, h5, h6]

/-- On plain text of suitable length the steps after the prefix pattern only
capitalise. -/
theorem finish_plain (tbl : Nat → List Nat) {r : List Nat} (hr : PlainText r)
    (hup : ∀ c, tbl c ≠ []) (hlen : (capitalize tbl r).length ≤ 60) :
    finish tbl (sentenceCut r) = capitalize tbl r := by
  obtain ⟨c, cs, hrc, hlead⟩ := plain_head hr
  obtain ⟨d, hlast, htrail⟩ := plain_last hr
  have hhead : r.head? = some c := by rw [hrc]; rfl
  have h7 : sentenceCut r = r := sentenceCut_eq_self hr.noTerminator
  have h8 : collapseWs r = r := collapseWs_eq_self hr.spaced
  have h9 : trim r = r :=
    trim_eq_self hhead (leadDecor_of_ws hlead) hlast (trailDecor_of_ws htrail)
  have h10 : stripDecor r = r := stripDecor_eq_self hhead hlead hlast htrail
  have hne : (capitalize tbl r).length ≠ 0 := by
    rw [hrc]
    simp only [capitalize, List.length_append]
    have : (toUpperCase tbl c).length ≠ 0 := by
      intro e
      have e' := List.length_eq_zero.mp e
      unfold toUpperCase at e'
      split at e'
      · simp at e'
      · split at e'
        · simp at e'
        · exact hup c e'
    omega
  simp only [finish, h7, h8, h9, h10, hne, if_false]
  exact truncate_of_length_le _ _ hlen

/-- C9 as stated fails: `please` on its own is not an opener of the pattern,
so `"please fix my code"` keeps it; and text after the prefix is not returned
as it is when it holds a double space. -/
theorem C9_please_alone_is_kept :
    summarizeTitle plainTable (some (utf16 "please fix my code")) =
        utf16 "Please fix my code" ∧
      summarizeTitle plainTable (some (utf16 "please fix my code")) ≠
        capitalize plainTable (utf16 "fix my code") ∧
      summarizeTitle plainTable (some (utf16 "write a  b")) = utf16 "A b" := by
  refine ⟨rfl, ?_, rfl⟩
  decide

/-- C9, amended: let the input be `pl ++ op ++ sep ++ r`, where `op` spells one
opener of the pattern (write, explain, describe, create, implement, how do,
how to, what is, can you, help me, summarize, draft, generate, build, show me,
give me) in any letter case, `pl` is empty or spells `please` followed by
whitespace, `sep` is at most one of `:`, `,`, `-` followed by whitespace (not
empty as a whole, no line feed in any whitespace), and `r` is plain text: not
empty, no line feed, backtick, URL or sentence terminator, single spaces only,
no leading or trailing decoration, at most 60 units once capitalised.  Then
the title is `r` with its first unit upper-cased.  At most one prefix is
stripped, since `r` is returned whatever word it begins with. -/
theorem C9_one_prefix_is_stripped (tbl : Nat → List Nat) (alt : List (List Nat))
    (pl op sep r : List Nat) (hup : ∀ c, tbl c ≠ [])
    (hmem : alt ∈ openers) (hpl : IsPlease pl) (hop : SpellsWords alt op)
    (hsep : IsSeparator sep) (hr : PlainText r)
    (hlen : (capitalize tbl r).length ≤ 60) :
    summarizeTitle tbl (some (pl ++ op ++ sep ++ r)) = capitalize tbl r := by
  have hne : ¬ (pl ++ op ++ sep ++ r).length = 0 := by
    intro e
    have := List.length_eq_zero.mp e
    simp only [List.append_eq_nil] at this
    exact hr.nonempty this.2
  simp only [summarizeTitle, hne, if_false]
  rw [frontClean_shape hmem hpl hop hsep hr]
  exact finish_plain tbl hr hup hlen

theorem plainText_of_check {r : List Nat} (h : plainCheck r = true) : PlainText r := by
  simp only [plainCheck, Bool.and_eq_true, Bool.not_eq_true', List.isEmpty_eq_false,
    List.all_eq_true, decide_eq_false_iff_not] at h
  obtain ⟨⟨⟨⟨⟨⟨⟨h1, h2⟩, h3⟩, h4⟩, h5⟩, h6⟩, h7⟩, h8⟩ := h
  refine ⟨?_, h2, h3, h4, ?_, h6, ?_, ?_⟩
  · intro e
    subst e
    simp at h1
  · intro c hc
    exact h5 c hc
  · intro c hc
    rw [hc] at h7
    simpa using h7
  · intro c hc
    rw [hc] at h8
    simpa using h8

/-- Instance of the amended C9, the example of the specification: `Please `,
`explain`, one space, and the plain text `how async functions work in depth`. -/
theorem C9_one_prefix_is_stripped_witness :
    summarizeTitle plainTable
        (some (utf16 "Please explain how async functions work in depth")) =
      utf16 "How async functions work in depth" :=
  C9_one_prefix_is_stripped plainTable [utf16 "explain"] (utf16 "Please ")
    (utf16 "explain") (utf16 " ") (utf16 "how async functions work in depth")
    (fun c => List.cons_ne_nil c [])
    (by decide)
    (Or.inr ⟨utf16 "Please", utf16 " ", rfl, rfl, by decide, by decide⟩)
    rfl
    ⟨by decide, [], utf16 " ", rfl, Or.inl rfl, by decide⟩
    (plainText_of_check (by decide))
    (by decide)

/-! ## Idempotence on clean titles: lemmas -/

theorem dropWhile_append_stop {p : Nat → Bool} {c : Nat} (a : List Nat)
    (hc : p c = false) : (a ++ [c]).dropWhile p = a.dropWhile p ++ [c] := by
  induction a with
  | nil => simp [List.dropWhile, hc]
  | cons x a ih =>
    by_cases hx : p x = true
    · simp [List.dropWhile, hx, ih]
    · simp [List.dropWhile, hx]

theorem dropTrailing_cons_of_not {p : Nat → Bool} {c : Nat} (l : List Nat)
    (hc : p c = false) : dropTrailing p (c :: l) = c :: dropTrailing p l := by
  simp [dropTrailing, dropWhile_append_stop _ hc]

theorem dropTrailing_decomp (p : Nat → Bool) (l : List Nat) :
    ∃ sfx, l = dropTrailing p l ++ sfx ∧ ∀ u ∈ sfx, p u = true := by
  refine ⟨(l.reverse.takeWhile p).reverse, ?_, ?_⟩
  · have := List.takeWhile_append_dropWhile p l.reverse
    have h2 := congrArg List.reverse this
    simp only [List.reverse_append, List.reverse_reverse] at h2
    exact h2.symm
  · intro u hu
    exact (List.mem_takeWhile_imp (List.mem_reverse.mp hu))

theorem head_dropWhile_not {p : Nat → Bool} {l : List Nat} {d : Nat}
    (h : (l.dropWhile p).head? = some d) : p d = false := by
  induction l with
  | nil => simp at h
  | cons x l ih =>
    by_cases hx : p x = true
    · simp only [List.dropWhile, hx] at h
      exact ih h
    · simp only [List.dropWhile, hx] at h
      simp only [List.head?_cons, Option.some.injEq] at h
      subst h
      simpa using hx

theorem dropTrailing_last {p : Nat → Bool} {l : List Nat} {d : Nat}
    (h : (dropTrailing p l).getLast? = some d) : p d = false := by
  unfold dropTrailing at h
  rw [List.getLast?_reverse] at h
  exact head_dropWhile_not h

theorem dropTrailing_all {p : Nat → Bool} {l : List Nat}
    (h : ∀ u ∈ l, p u = true) : dropTrailing p l = [] := by
  unfold dropTrailing
  rw [List.reverse_eq_nil_iff, List.dropWhile_eq_nil_iff]
  intro u hu
  exact h u (List.mem_reverse.mp hu)

theorem dropWhile_append_all {p : Nat → Bool} (s t : List Nat)
    (h : ∀ u ∈ s, p u = true) : (s ++ t).dropWhile p = t.dropWhile p := by
  induction s with
  | nil => rfl
  | cons x s ih =>
    have hx : p x = true := h x (by simp)
    simp only [List.cons_append, List.dropWhile, hx]
    exact ih (fun v hv => h v (List.mem_cons_of_mem _ hv))

theorem dropTrailing_append_all {p : Nat → Bool} (a sfx : List Nat)
    (h : ∀ u ∈ sfx, p u = true) : dropTrailing p (a ++ sfx) = dropTrailing p a := by
  unfold dropTrailing
  rw [List.reverse_append,
    dropWhile_append_all _ _ (fun u hu => h u (List.mem_reverse.mp hu))]

theorem dropTrailing_dropTrailing {p q : Nat → Bool} (l : List Nat)
    (hpq : ∀ c, p c = true → q c = true) :
    dropTrailing q (dropTrailing p l) = dropTrailing q l := by
  obtain ⟨sfx, hl, hsfx⟩ := dropTrailing_decomp p l
  conv_rhs => rw [hl]
  rw [dropTrailing_append_all _ _ (fun u hu => hpq u (hsfx u hu))]

theorem ws_trailDecor {c : Nat} (h : isWs c = true) : isTrailDecor c = true := by
  simp [isTrailDecor, h]

theorem trailDecor_not_word {c : Nat} (h : isTrailDecor c = true) : isWord c = false := by
  cases hw : isWord c with
  | false => rfl
  | true =>
    exfalso
    unfold isTrailDecor isWs at h
    unfold isWord at hw
    simp only [Bool.or_eq_true, Bool.and_eq_true, decide_eq_true_eq, beq_iff_eq] at h hw
    omega

/-- A tidy title is a fixed point of `summarizeTitle`. -/
theorem summarizeTitle_tidy (tbl : Nat → List Nat) {y : List Nat} (hy : Tidy tbl y) :
    summarizeTitle tbl (some y) = y := by
  obtain ⟨c, cs, hyc, hlead, h35, hup⟩ := hy.head
  obtain ⟨d, hlast, htrail⟩ := hy.last
  have hhead : y.head? = some c := by rw [hyc]; rfl
  have hne : ¬ y.length = 0 := by rw [hyc]; simp
  have h1 : trim y = y :=
    trim_eq_self hhead (leadDecor_of_ws hlead) hlast (trailDecor_of_ws htrail)
  have h2 : firstLine y = y := firstLine_eq_self hy.noLineFeed
  have h3 : stripHeading y = y := by
    apply stripHeading_eq_self
    rw [hhead]
    intro e
    simp only [Option.some.injEq] at e
    exact h35 e
  have h4 : stripTicks y = y := stripTicks_eq_self hy.noTick
  have h5 : stripUrls y = y := stripUrls_eq_self hy.noUrl
  have h6 : stripPrefix y = y := by
    unfold stripPrefix
    rw [hy.noPrefix]
  have h8 : collapseWs y = y := collapseWs_eq_self hy.spaced
  have h10 : stripDecor y = y := stripDecor_eq_self hhead hlead hlast htrail
  have hcap : capitalize tbl y = y := by
    rw [hyc]
    simp [capitalize, hup]
  simp only [summarizeTitle, hne, if_false, frontClean, h1, h2, h3, h4, h5, h6, hy.noCut,
    finish, h8, h10, hcap]
  exact truncate_of_length_le _ _ hy.short

/-! ### URLs under prefix, suffix and whitespace collapsing -/

theorem urlStartsAt_iff (l : List Nat) :
    urlStartsAt l = true ↔
      ∃ c t, isWs c = false ∧
        (l = 104 :: 116 :: 116 :: 112 :: 58 :: 47 :: 47 :: c :: t ∨
          l = 104 :: 116 :: 116 :: 112 :: 115 :: 58 :: 47 :: 47 :: c :: t) := by
  constructor
  · intro h
    obtain ⟨r, rfl⟩ := urlStartsAt_true h
    simp only [urlStartsAt, matchLit, if_true] at h
    cases hs : matchLit [115, 58, 47, 47] r with
    | some r2 =>
      have hr := matchLit_some hs
      simp only [hs] at h
      cases r2 with
      | nil => simp at h
      | cons c t =>
        refine ⟨c, t, by simpa using h, Or.inr ?_⟩
        rw [hr]
        rfl
    | none =>
      simp only [hs] at h
      cases hs2 : matchLit [58, 47, 47] r with
      | none => simp [hs2] at h
      | some r2 =>
        have hr := matchLit_some hs2
        simp only [hs2] at h
        cases r2 with
        | nil => simp at h
        | cons c t =>
          refine ⟨c, t, by simpa using h, Or.inl ?_⟩
          rw [hr]
          rfl
  · rintro ⟨c, t, hc, rfl | rfl⟩
    · simp [urlStartsAt, matchLit, hc]
    · simp [urlStartsAt, matchLit, hc]

theorem urlStartsAt_append {a : List Nat} (b : List Nat) (h : urlStartsAt a = true) :
    urlStartsAt (a ++ b) = true := by
  obtain ⟨c, t, hc, rfl | rfl⟩ := (urlStartsAt_iff a).mp h
  · exact (urlStartsAt_iff _).mpr ⟨c, t ++ b, hc, Or.inl rfl⟩
  · exact (urlStartsAt_iff _).mpr ⟨c, t ++ b, hc, Or.inr rfl⟩

theorem hasUrl_cons (c : Nat) (cs : List Nat) :
    hasUrl (c :: cs) = (urlStartsAt (c :: cs) || hasUrl cs) := rfl

theorem hasUrl_left {a b : List Nat} (h : hasUrl (a ++ b) = false) :
    hasUrl a = false := by
  induction a with
  | nil => rfl
  | cons x a ih =>
    rw [List.cons_append, hasUrl_cons, Bool.or_eq_false_iff] at h
    rw [hasUrl_cons, Bool.or_eq_false_iff]
    refine ⟨?_, ih h.2⟩
    cases hu : urlStartsAt (x :: a) with
    | false => rfl
    | true =>
      have := urlStartsAt_append b hu
      rw [List.cons_append, h.1] at this
      exact absurd this (by simp)

theorem hasUrl_right {a b : List Nat} (h : hasUrl (a ++ b) = false) :
    hasUrl b = false := by
  induction a with
  | nil => exact h
  | cons x a ih =>
    rw [List.cons_append, hasUrl_cons, Bool.or_eq_false_iff] at h
    exact ih h.2

theorem hasUrl_dropWhile {p : Nat → Bool} {l : List Nat} (h : hasUrl l = false) :
    hasUrl (l.dropWhile p) = false := by
  have := List.takeWhile_append_dropWhile p l
  rw [← this] at h
  exact hasUrl_right h

theorem hasUrl_dropTrailing {p : Nat → Bool} {l : List Nat} (h : hasUrl l = false) :
    hasUrl (dropTrailing p l) = false := by
  obtain ⟨sfx, hl, -⟩ := dropTrailing_decomp p l
  rw [hl] at h
  exact hasUrl_left h

theorem hasUrl_take {l : List Nat} (n : Nat) (h : hasUrl l = false) :
    hasUrl (l.take n) = false := by
  have := List.take_append_drop n l
  rw [← this] at h
  exact hasUrl_left h

theorem collapseWsAux_true_eq (l : List Nat) :
    collapseWsAux true l = collapseWsAux false (l.dropWhile isWs) := by
  induction l with
  | nil => rfl
  | cons c cs ih =>
    by_cases hc : isWs c = true
    · simp only [collapseWsAux, hc, if_true, List.dropWhile]
      exact ih
    · simp [collapseWsAux, hc, List.dropWhile]

theorem collapseWsAux_cons_of_not {c : Nat} (b : Bool) (cs : List Nat)
    (hc : isWs c = false) :
    collapseWsAux b (c :: cs) = c :: collapseWsAux false cs := by
  simp [collapseWsAux, hc]

/-- A prefix without whitespace of the collapsed text is a prefix of the text. -/
theorem collapse_nonws_left {pre : List Nat} (hpre : ∀ u ∈ pre, isWs u = false) :
    ∀ {l rest : List Nat}, collapseWsAux false l = pre ++ rest →
      ∃ l2, l = pre ++ l2 ∧ rest = collapseWsAux false l2 := by
  induction pre with
  | nil =>
    intro l rest h
    exact ⟨l, rfl, h.symm⟩
  | cons a pre ih =>
    intro l rest h
    have ha : isWs a = false := hpre a (by simp)
    cases l with
    | nil => simp [collapseWsAux] at h
    | cons c cs =>
      by_cases hc : isWs c = true
      · simp only [collapseWsAux, hc, if_true, Bool.false_eq_true, if_false,
          List.cons_append, List.cons.injEq] at h
        rw [← h.1] at ha
        simp [isWs] at ha
      · have hc' : isWs c = false := by simpa using hc
        rw [collapseWsAux_cons_of_not _ _ hc'] at h
        simp only [List.cons_append, List.cons.injEq] at h
        obtain ⟨l2, hl2, hrest⟩ := ih (fun u hu => hpre u (List.mem_cons_of_mem _ hu)) h.2
        exact ⟨l2, by rw [h.1, hl2]; rfl, hrest⟩

theorem urlStartsAt_collapse {l : List Nat}
    (h : urlStartsAt (collapseWsAux false l) = true) : urlStartsAt l = true := by
  obtain ⟨c, t, hc, h1 | h1⟩ := (urlStartsAt_iff _).mp h
  · have hpre : ∀ u ∈ [104, 116, 116, 112, 58, 47, 47, c], isWs u = false := by
      intro u hu
      simp only [List.mem_cons, List.mem_singleton, List.not_mem_nil, or_false] at hu
      rcases hu with rfl | rfl | rfl | rfl | rfl | rfl | rfl | rfl <;>
        first | exact hc | decide
    obtain ⟨l2, hl2, -⟩ := @collapse_nonws_left _ hpre l t h1
    exact (urlStartsAt_iff _).mpr ⟨c, l2, hc, Or.inl hl2⟩
  · have hpre : ∀ u ∈ [104, 116, 116, 112, 115, 58, 47, 47, c], isWs u = false := by
      intro u hu
      simp only [List.mem_cons, List.mem_singleton, List.not_mem_nil, or_false] at hu
      rcases hu with rfl | rfl | rfl | rfl | rfl | rfl | rfl | rfl | rfl <;>
        first | exact hc | decide
    obtain ⟨l2, hl2, -⟩ := @collapse_nonws_left _ hpre l t h1
    exact (urlStartsAt_iff _).mpr ⟨c, l2, hc, Or.inr hl2⟩

theorem urlStartsAt_head {c : Nat} {l : List Nat} (h : urlStartsAt (c :: l) = true) :
    c = 104 := by
  obtain ⟨t, ht⟩ := urlStartsAt_true h
  simp only [List.cons.injEq] at ht
  exact ht.1

theorem hasUrl_collapse {l : List Nat} (b : Bool) (h : hasUrl l = false) :
    hasUrl (collapseWsAux b l) = false := by
  induction l generalizing b with
  | nil => rfl
  | cons c cs ih =>
    rw [hasUrl_cons, Bool.or_eq_false_iff] at h
    by_cases hc : isWs c = true
    · cases b with
      | true =>
        simp only [collapseWsAux, hc, if_true]
        exact ih true h.2
      | false =>
        simp only [collapseWsAux, hc, if_true, Bool.false_eq_true, if_false]
        rw [hasUrl_cons, Bool.or_eq_false_iff]
        refine ⟨?_, ih true h.2⟩
        cases hu : urlStartsAt (32 :: collapseWsAux true cs) with
        | false => rfl
        | true => exact absurd (urlStartsAt_head hu) (by decide)
    · have hc' : isWs c = false := by simpa using hc
      rw [collapseWsAux_cons_of_not _ _ hc', hasUrl_cons, Bool.or_eq_false_iff]
      refine ⟨?_, ih false h.2⟩
      cases hu : urlStartsAt (c :: collapseWsAux false cs) with
      | false => rfl
      | true =>
        rw [← collapseWsAux_cons_of_not false cs hc'] at hu
        have := urlStartsAt_collapse hu
        rw [h.1] at this
        exact absurd this (by simp)

/-! ### The prefix pattern under extension of the text -/

theorem matchLitCI_some {w l r : List Nat} (h : matchLitCI w l = some r) :
    ∃ p, l = p ++ r ∧ Spells w p := by
  induction w generalizing l with
  | nil =>
    cases l <;> simp only [matchLitCI, Option.some.injEq] at h <;> subst h <;>
      exact ⟨[], rfl, rfl⟩
  | cons a w ih =>
    cases l with
    | nil => simp [matchLitCI] at h
    | cons c cs =>
      simp only [matchLitCI] at h
      split at h
      · rename_i hc
        obtain ⟨p, hp, hs⟩ := ih h
        refine ⟨c :: p, by rw [hp]; rfl, ?_⟩
        simp only [Spells, List.map_cons, hc, List.cons.injEq, true_and]
        exact hs
      · simp at h

theorem matchLitCI_append {w l r : List Nat} (s : List Nat)
    (h : matchLitCI w l = some r) : matchLitCI w (l ++ s) = some (r ++ s) := by
  obtain ⟨p, rfl, hp⟩ := matchLitCI_some h
  rw [List.append_assoc]
  exact matchLitCI_spells _ hp

theorem matchWsPlus_some {l r : List Nat} (h : matchWsPlus l = some r) :
    ∃ g, l = g ++ r ∧ g ≠ [] ∧ (∀ u ∈ g, isWs u = true) ∧
      ∀ c, r.head? = some c → isWs c = false := by
  cases l with
  | nil => simp [matchWsPlus] at h
  | cons c cs =>
    simp only [matchWsPlus] at h
    split at h
    · rename_i hc
      simp only [Option.some.injEq] at h
      subst h
      refine ⟨c :: cs.takeWhile isWs, ?_, by simp, ?_, ?_⟩
      · simp [List.takeWhile_append_dropWhile]
      · intro u hu
        rcases List.mem_cons.mp hu with rfl | hu
        · exact hc
        · exact List.mem_takeWhile_imp hu
      · intro d hd
        exact head_dropWhile_not hd
    · simp at h

theorem matchWsPlus_append {l r : List Nat} (s : List Nat)
    (h : matchWsPlus l = some r) (hr : r ≠ []) :
    matchWsPlus (l ++ s) = some (r ++ s) := by
  obtain ⟨g, rfl, hg, hall, hhead⟩ := matchWsPlus_some h
  rw [List.append_assoc]
  apply matchWsPlus_run hg hall
  intro c hc
  cases r with
  | nil => exact absurd rfl hr
  | cons d ds =>
    simp only [List.cons_append, List.head?_cons, Option.some.injEq] at hc
    subst hc
    exact hhead _ rfl

theorem mem_of_getLast?_eq_some {l : List Nat} {z : Nat} (h : l.getLast? = some z) :
    z ∈ l := by
  obtain ⟨ys, rfl⟩ := List.getLast?_eq_some_iff.mp h
  simp

theorem matchLitCI_nil_of_ne {w : List Nat} (hw : w ≠ []) : matchLitCI w [] = none := by
  cases w with
  | nil => exact absurd rfl hw
  | cons a w => rfl

theorem matchWords_nil {alt : List (List Nat)} (hwf : wellFormedAlt alt = true)
    (hne : alt ≠ []) : matchWords alt [] = none := by
  cases alt with
  | nil => exact absurd rfl hne
  | cons w ws =>
    obtain ⟨-, hw, -⟩ := wellFormedAlt_cons hwf
    cases ws with
    | nil => simp [matchWords, matchLitCI_nil_of_ne hw]
    | cons w2 ws => simp [matchWords, matchLitCI_nil_of_ne hw]

theorem matchWords_append {alt : List (List Nat)} {l r : List Nat} (s : List Nat)
    (hwf : wellFormedAlt alt = true) (h : matchWords alt l = some r) :
    matchWords alt (l ++ s) = some (r ++ s) := by
  induction alt generalizing l with
  | nil =>
    simp only [matchWords, Option.some.injEq] at h
    subst h
    simp [matchWords]
  | cons w ws ih =>
    obtain ⟨-, -, hws⟩ := wellFormedAlt_cons hwf
    cases ws with
    | nil =>
      simp only [matchWords] at h ⊢
      exact matchLitCI_append s h
    | cons w2 ws =>
      simp only [matchWords] at h ⊢
      cases h1 : matchLitCI w l with
      | none => simp [h1] at h
      | some r1 =>
        simp only [h1] at h
        cases h2 : matchWsPlus r1 with
        | none => simp [h2] at h
        | some r2 =>
          simp only [h2] at h
          have hr2 : r2 ≠ [] := by
            intro e
            subst e
            rw [matchWords_nil hws (by simp)] at h
            exact Option.noConfusion h
          simp only [matchLitCI_append s h1, matchWsPlus_append s h2 hr2]
          exact ih hws h

theorem matchWords_some {alt : List (List Nat)} {l r : List Nat}
    (hwf : wellFormedAlt alt = true) (hne : alt ≠ [])
    (h : matchWords alt l = some r) :
    ∃ op z, l = op ++ r ∧ op.getLast? = some z ∧ isLetter z = true := by
  induction alt generalizing l with
  | nil => exact absurd rfl hne
  | cons w ws ih =>
    obtain ⟨hl, hw, hws⟩ := wellFormedAlt_cons hwf
    cases ws with
    | nil =>
      simp only [matchWords] at h
      obtain ⟨p, rfl, hp⟩ := matchLitCI_some h
      cases hlast : p.getLast? with
      | none =>
        have : p = [] := List.getLast?_eq_none_iff.mp hlast
        subst this
        simp only [Spells, List.map_nil] at hp
        exact absurd hp.symm hw
      | some z =>
        exact ⟨p, z, rfl, hlast,
          spells_letters hp hl z (mem_of_getLast?_eq_some hlast)⟩
    | cons w2 ws =>
      simp only [matchWords] at h
      cases h1 : matchLitCI w l with
      | none => simp [h1] at h
      | some r1 =>
        simp only [h1] at h
        cases h2 : matchWsPlus r1 with
        | none => simp [h2] at h
        | some r2 =>
          simp only [h2] at h
          obtain ⟨p, rfl, -⟩ := matchLitCI_some h1
          obtain ⟨g, rfl, -, -, -⟩ := matchWsPlus_some h2
          obtain ⟨op, z, rfl, hz, hzl⟩ := ih hws (by simp) h
          refine ⟨p ++ g ++ op, z, by simp, ?_, hzl⟩
          obtain ⟨ys, rfl⟩ := List.getLast?_eq_some_iff.mp hz
          rw [← List.append_assoc]
          simp

theorem atWordEnd_append {r : List Nat} (s : List Nat) (hr : r ≠ []) :
    atWordEnd (r ++ s) = atWordEnd r := by
  cases r with
  | nil => exact absurd rfl hr
  | cons c cs => rfl

theorem getLast?_append_right {q r : List Nat} (hr : r ≠ []) :
    (q ++ r).getLast? = r.getLast? :=
  getLast?_append_of_ne_nil hr

theorem matchOpenerAlt_ext {alt : List (List Nat)} {l r : List Nat} (s : List Nat)
    (hwf : wellFormedAlt alt = true) (hne : alt ≠ [])
    (h : matchOpenerAlt alt l = some r)
    (hext : atWordEnd s = true ∨ ∃ z, l.getLast? = some z ∧ isWord z = false) :
    matchOpenerAlt alt (l ++ s) = some (r ++ s) := by
  unfold matchOpenerAlt at h ⊢
  cases hm : matchWords alt l with
  | none => simp [hm] at h
  | some r0 =>
    simp only [hm] at h
    split at h
    · rename_i hend
      simp only [Option.some.injEq] at h
      subst h
      rw [matchWords_append s hwf hm]
      have hend' : atWordEnd (r0 ++ s) = true := by
        cases hr0 : r0 with
        | nil =>
          rcases hext with hs | ⟨z, hz, hzw⟩
          · simpa using hs
          · exfalso
            obtain ⟨op, y, hl, hy, hyl⟩ := matchWords_some hwf hne hm
            rw [hr0, List.append_nil] at hl
            rw [hl, hy] at hz
            simp only [Option.some.injEq] at hz
            subst hz
            rw [isLetter_isWord hyl] at hzw
            exact Bool.noConfusion hzw
        | cons c cs =>
          rw [← hr0, atWordEnd_append s (by rw [hr0]; simp)]
          exact hend
      simp [hend']
    · simp at h

theorem matchOpenerFrom_ext {alts : List (List (List Nat))} {l r : List Nat}
    (s : List Nat) (hwf : ∀ a ∈ alts, wellFormedAlt a = true ∧ a ≠ [])
    (h : matchOpenerFrom alts l = some r)
    (hext : atWordEnd s = true ∨ ∃ z, l.getLast? = some z ∧ isWord z = false) :
    ∃ r2, matchOpenerFrom alts (l ++ s) = some r2 := by
  induction alts with
  | nil => simp [matchOpenerFrom] at h
  | cons a alts ih =>
    have ha := hwf a (by simp)
    simp only [matchOpenerFrom] at h ⊢
    cases hm : matchOpenerAlt a l with
    | some r0 =>
      rw [matchOpenerAlt_ext s ha.1 ha.2 hm hext]
      exact ⟨_, rfl⟩
    | none =>
      simp only [hm] at h
      cases hm2 : matchOpenerAlt a (l ++ s) with
      | some r3 => exact ⟨_, rfl⟩
      | none => exact ih (fun b hb => hwf b (List.mem_cons_of_mem _ hb)) h

theorem openers_wf : ∀ a ∈ openers, wellFormedAlt a = true ∧ a ≠ [] :=
  fun a ha => ⟨openers_wellFormed a ha, openers_ne_nil a ha⟩

theorem matchOpener_ext {l r : List Nat} (s : List Nat) (h : matchOpener l = some r)
    (hext : atWordEnd s = true ∨ ∃ z, l.getLast? = some z ∧ isWord z = false) :
    ∃ r2, matchOpener (l ++ s) = some r2 :=
  matchOpenerFrom_ext s openers_wf h hext

theorem matchOpener_nil : matchOpener [] = none := by
  decide

theorem matchPlease_some {l r : List Nat} (h : matchPlease l = some r) :
    ∃ q, l = q ++ r := by
  unfold matchPlease at h
  cases h1 : matchLitCI (utf16 "please") l with
  | none => simp [h1] at h
  | some r1 =>
    simp only [h1] at h
    obtain ⟨p, rfl, -⟩ := matchLitCI_some h1
    obtain ⟨g, rfl, -, -, -⟩ := matchWsPlus_some h
    exact ⟨p ++ g, by simp⟩

theorem matchPlease_append {l r : List Nat} (s : List Nat) (h : matchPlease l = some r)
    (hr : r ≠ []) : matchPlease (l ++ s) = some (r ++ s) := by
  unfold matchPlease at h ⊢
  cases h1 : matchLitCI (utf16 "please") l with
  | none => simp [h1] at h
  | some r1 =>
    simp only [h1] at h
    simp only [matchLitCI_append s h1]
    exact matchWsPlus_append s h hr

/-- The prefix pattern matches exactly when an opener follows the optional
`please`, or stands at the start. -/
theorem matchPrefix_isSome (l : List Nat) :
    (matchPrefix l).isSome = true ↔
      (∃ r1 r, matchPlease (l.dropWhile isWs) = some r1 ∧ matchOpener r1 = some r) ∨
        ∃ r, matchOpener (l.dropWhile isWs) = some r := by
  unfold matchPrefix
  simp only
  cases hp : matchPlease (l.dropWhile isWs) with
  | none =>
    cases ho : matchOpener (l.dropWhile isWs) with
    | none => simp
    | some r => simp
  | some r1 =>
    cases ho1 : matchOpener r1 with
    | none =>
      cases ho : matchOpener (l.dropWhile isWs) with
      | none => simp [ho1]
      | some r => simp [ho1]
    | some r => simp [ho1]

/-- A match of the prefix pattern survives appending text, when the appended
text does not begin with a word unit or the text ended in a non-word unit. -/
theorem matchPrefix_ext {c : Nat} {cs : List Nat} (s : List Nat) (hc : isWs c = false)
    (h : (matchPrefix (c :: cs)).isSome = true)
    (hext : atWordEnd s = true ∨
      ∃ z, (c :: cs).getLast? = some z ∧ isWord z = false) :
    (matchPrefix (c :: cs ++ s)).isSome = true := by
  rw [matchPrefix_isSome] at h ⊢
  rw [List.cons_append, dropWhile_eq_self_of_head hc]
  rw [dropWhile_eq_self_of_head hc] at h
  rcases h with ⟨r1, r, hp, ho⟩ | ⟨r, ho⟩
  · have hr1 : r1 ≠ [] := by
      intro e
      subst e
      rw [matchOpener_nil] at ho
      exact Option.noConfusion ho
    obtain ⟨q, hq⟩ := matchPlease_some hp
    have hext' : atWordEnd s = true ∨ ∃ z, r1.getLast? = some z ∧ isWord z = false := by
      rcases hext with hs | ⟨z, hz, hzw⟩
      · exact Or.inl hs
      · refine Or.inr ⟨z, ?_, hzw⟩
        rw [hq, getLast?_append_right hr1] at hz
        exact hz
    obtain ⟨r2, hr2⟩ := matchOpener_ext s ho hext'
    exact Or.inl ⟨r1 ++ s, r2, by
      rw [← List.cons_append]
      exact matchPlease_append s hp hr1, hr2⟩
  · obtain ⟨r2, hr2⟩ := matchOpener_ext s ho hext
    exact Or.inr ⟨r2, by rw [← List.cons_append]; exact hr2⟩

/-! ### The prefix pattern and the case of the first unit -/

theorem matchLitCI_head_fold {w : List Nat} {c d : Nat} (l : List Nat) (hw : w ≠ [])
    (h : foldCase c = foldCase d) : matchLitCI w (c :: l) = matchLitCI w (d :: l) := by
  cases w with
  | nil => exact absurd rfl hw
  | cons a w => simp [matchLitCI, h]

theorem matchWords_head_fold {alt : List (List Nat)} {c d : Nat} (l : List Nat)
    (hwf : wellFormedAlt alt = true) (hne : alt ≠ [])
    (h : foldCase c = foldCase d) : matchWords alt (c :: l) = matchWords alt (d :: l) := by
  cases alt with
  | nil => exact absurd rfl hne
  | cons w ws =>
    obtain ⟨-, hw, -⟩ := wellFormedAlt_cons hwf
    cases ws with
    | nil => simp only [matchWords, matchLitCI_head_fold l hw h]
    | cons w2 ws => simp only [matchWords, matchLitCI_head_fold l hw h]

theorem matchOpenerFrom_head_fold {alts : List (List (List Nat))} {c d : Nat}
    (l : List Nat) (hwf : ∀ a ∈ alts, wellFormedAlt a = true ∧ a ≠ [])
    (h : foldCase c = foldCase d) :
    matchOpenerFrom alts (c :: l) = matchOpenerFrom alts (d :: l) := by
  induction alts with
  | nil => rfl
  | cons a alts ih =>
    have ha := hwf a (by simp)
    simp only [matchOpenerFrom, matchOpenerAlt, matchWords_head_fold l ha.1 ha.2 h,
      ih (fun b hb => hwf b (List.mem_cons_of_mem _ hb))]

theorem matchPrefix_head_fold {c d : Nat} (l : List Nat) (hc : isWs c = false)
    (hd : isWs d = false) (h : foldCase c = foldCase d) :
    matchPrefix (c :: l) = matchPrefix (d :: l) := by
  unfold matchPrefix
  simp only [dropWhile_eq_self_of_head hc, dropWhile_eq_self_of_head hd, matchPlease,
    matchLitCI_head_fold l (show utf16 "please" ≠ [] by decide) h, matchOpener,
    matchOpenerFrom_head_fold l openers_wf h]

/-! ### The prefix pattern and whitespace collapsing -/

theorem lowerWord_cons {a : Nat} {w : List Nat} (h : lowerWord (a :: w) = true) :
    (97 ≤ a ∧ a ≤ 122) ∧ lowerWord w = true := by
  simp only [lowerWord, List.all_cons, Bool.and_eq_true, decide_eq_true_eq] at h
  exact ⟨h.1, by simpa [lowerWord] using h.2⟩

theorem matchLitCI_collapse {w : List Nat} (l : List Nat) (hw : lowerWord w = true) :
    matchLitCI w (collapseWsAux false l) =
      (matchLitCI w l).map (collapseWsAux false) := by
  induction w generalizing l with
  | nil => cases l <;> simp [matchLitCI]
  | cons a w ih =>
    obtain ⟨ha, hw'⟩ := lowerWord_cons hw
    cases l with
    | nil => simp [matchLitCI, collapseWsAux]
    | cons c cs =>
      by_cases hc : isWs c = true
      · have h1 : ¬ foldCase c = a := by
          intro e
          have := isLetter_not_ws (foldCase_letter e ha)
          rw [hc] at this
          exact Bool.noConfusion this
        have h2 : ¬ foldCase 32 = a := by
          intro e
          have := isLetter_not_ws (foldCase_letter e ha)
          rw [isWs_space] at this
          exact Bool.noConfusion this
        simp [matchLitCI, collapseWsAux, hc, h1, h2]
      · have hc' : isWs c = false := by simpa using hc
        rw [collapseWsAux_cons_of_not _ _ hc']
        simp only [matchLitCI]
        split
        · exact ih cs hw'
        · rfl

theorem dropWhile_collapse_head (l : List Nat) :
    (collapseWsAux false (l.dropWhile isWs)).dropWhile isWs =
      collapseWsAux false (l.dropWhile isWs) := by
  cases h : l.dropWhile isWs with
  | nil => rfl
  | cons d ds =>
    have hd : isWs d = false := head_dropWhile_not (l := l) (by rw [h]; rfl)
    rw [collapseWsAux_cons_of_not _ _ hd]
    exact dropWhile_eq_self_of_head hd

theorem matchWsPlus_collapse (l : List Nat) :
    matchWsPlus (collapseWsAux false l) =
      (matchWsPlus l).map (collapseWsAux false) := by
  cases l with
  | nil => rfl
  | cons c cs =>
    by_cases hc : isWs c = true
    · simp only [collapseWsAux, hc, if_true, Bool.false_eq_true, if_false, matchWsPlus,
        isWs_space, Option.map_some', Option.some.injEq]
      rw [collapseWsAux_true_eq]
      exact dropWhile_collapse_head cs
    · have hc' : isWs c = false := by simpa using hc
      rw [collapseWsAux_cons_of_not _ _ hc']
      simp [matchWsPlus, hc']

theorem matchWords_collapse {alt : List (List Nat)} (l : List Nat)
    (hwf : wellFormedAlt alt = true) :
    matchWords alt (collapseWsAux false l) =
      (matchWords alt l).map (collapseWsAux false) := by
  induction alt generalizing l with
  | nil => simp [matchWords]
  | cons w ws ih =>
    obtain ⟨hl, -, hws⟩ := wellFormedAlt_cons hwf
    cases ws with
    | nil => simp only [matchWords, matchLitCI_collapse l hl]
    | cons w2 ws =>
      simp only [matchWords, matchLitCI_collapse l hl]
      cases h1 : matchLitCI w l with
      | none => rfl
      | some r1 =>
        simp only [Option.map_some', matchWsPlus_collapse r1]
        cases h2 : matchWsPlus r1 with
        | none => rfl
        | some r2 =>
          simp only [Option.map_some']
          exact ih r2 hws

theorem atWordEnd_collapse (r : List Nat) :
    atWordEnd (collapseWsAux false r) = atWordEnd r := by
  cases r with
  | nil => rfl
  | cons c cs =>
    by_cases hc : isWs c = true
    · have h1 : isWord c = false := trailDecor_not_word (ws_trailDecor hc)
      have h2 : isWord 32 = false := by decide
      simp only [collapseWsAux, hc, if_true, Bool.false_eq_true, if_false, atWordEnd, h1,
        h2]
    · have hc' : isWs c = false := by simpa using hc
      rw [collapseWsAux_cons_of_not _ _ hc']
      rfl

theorem matchOpenerAlt_collapse {alt : List (List Nat)} (l : List Nat)
    (hwf : wellFormedAlt alt = true) :
    matchOpenerAlt alt (collapseWsAux false l) =
      (matchOpenerAlt alt l).map (collapseWsAux false) := by
  simp only [matchOpenerAlt, matchWords_collapse l hwf]
  cases h : matchWords alt l with
  | none => rfl
  | some r =>
    simp only [Option.map_some', atWordEnd_collapse]
    split <;> rfl

theorem matchOpenerFrom_collapse {alts : List (List (List Nat))} (l : List Nat)
    (hwf : ∀ a ∈ alts, wellFormedAlt a = true ∧ a ≠ []) :
    matchOpenerFrom alts (collapseWsAux false l) =
      (matchOpenerFrom alts l).map (collapseWsAux false) := by
  induction alts with
  | nil => rfl
  | cons a alts ih =>
    simp only [matchOpenerFrom, matchOpenerAlt_collapse l (hwf a (by simp)).1]
    cases h : matchOpenerAlt a l with
    | none =>
      simp only [Option.map_none']
      exact ih (fun b hb => hwf b (List.mem_cons_of_mem _ hb))
    | some r => rfl

theorem matchPlease_collapse (l : List Nat) :
    matchPlease (collapseWsAux false l) =
      (matchPlease l).map (collapseWsAux false) := by
  simp only [matchPlease, matchLitCI_collapse l (show lowerWord (utf16 "please") = true by decide)]
  cases h : matchLitCI (utf16 "please") l with
  | none => rfl
  | some r => simp only [Option.map_some', matchWsPlus_collapse]

theorem matchPrefix_collapse {c : Nat} {cs : List Nat} (hc : isWs c = false)
    (h : (matchPrefix (collapseWsAux false (c :: cs))).isSome = true) :
    (matchPrefix (c :: cs)).isSome = true := by
  rw [matchPrefix_isSome] at h ⊢
  rw [collapseWsAux_cons_of_not _ _ hc, dropWhile_eq_self_of_head hc,
    ← collapseWsAux_cons_of_not false _ hc] at h
  rw [dropWhile_eq_self_of_head hc]
  rcases h with ⟨r1, r, hp, ho⟩ | ⟨r, ho⟩
  · rw [matchPlease_collapse] at hp
    cases hp0 : matchPlease (c :: cs) with
    | none => simp [hp0] at hp
    | some q =>
      simp only [hp0, Option.map_some', Option.some.injEq] at hp
      subst hp
      simp only [matchOpener, matchOpenerFrom_collapse q openers_wf] at ho
      cases ho0 : matchOpenerFrom openers q with
      | none => simp [ho0] at ho
      | some r0 => exact Or.inl ⟨q, r0, rfl, ho0⟩
  · simp only [matchOpener, matchOpenerFrom_collapse (c :: cs) openers_wf] at ho
    cases ho0 : matchOpenerFrom openers (c :: cs) with
    | none => simp [ho0] at ho
    | some r0 => exact Or.inr ⟨r0, ho0⟩

/-! ### The sentence cut -/

theorem searchTerminator_build {pre post : List Nat} {z : Nat}
    (hpre : ∀ u ∈ pre, isTerminator u = false) (hz : isTerminator z = true) :
    searchTerminator (pre ++ z :: post) = some pre.length := by
  induction pre with
  | nil => simp [searchTerminator, hz]
  | cons a pre ih =>
    have ha := hpre a (by simp)
    have := ih (fun u hu => hpre u (List.mem_cons_of_mem _ hu))
    simp [searchTerminator, ha, this]

theorem searchTerminator_decomp {l : List Nat} {i : Nat}
    (h : searchTerminator l = some i) :
    ∃ pre z post, l = pre ++ z :: post ∧ pre.length = i ∧
      (∀ u ∈ pre, isTerminator u = false) ∧ isTerminator z = true := by
  induction l generalizing i with
  | nil => simp [searchTerminator] at h
  | cons a l ih =>
    unfold searchTerminator at h
    by_cases ha : isTerminator a = true
    · simp only [ha, if_true, Option.some.injEq] at h
      subst h
      exact ⟨[], a, l, rfl, rfl, by simp, ha⟩
    · simp only [ha, if_false, Option.map_eq_some', Bool.false_eq_true] at h
      obtain ⟨k, hk, rfl⟩ := h
      obtain ⟨pre, z, post, rfl, hlen, hpre, hz⟩ := ih hk
      refine ⟨a :: pre, z, post, rfl, by simp [hlen], ?_, hz⟩
      intro u hu
      rcases List.mem_cons.mp hu with rfl | hu
      · simpa using ha
      · exact hpre u hu

theorem settled_cut {l : List Nat} (h : Settled l) : sentenceCut l = l := by
  rcases h with h | ⟨pre, z, post, rfl, hpre, hz, hor⟩
  · exact sentenceCut_eq_self h
  · unfold sentenceCut
    rw [searchTerminator_build hpre hz]
    simp only
    split
    · rename_i h8
      rcases hor with h | h
      · omega
      · subst h
        simp
    · rfl

theorem sentenceCut_settled (t : List Nat) : Settled (sentenceCut t) := by
  unfold sentenceCut
  cases h : searchTerminator t with
  | none => exact Or.inl (searchTerminator_none h)
  | some i =>
    obtain ⟨pre, z, post, rfl, hlen, hpre, hz⟩ := searchTerminator_decomp h
    simp only
    split
    · refine Or.inr ⟨pre, z, [], ?_, hpre, hz, Or.inr rfl⟩
      rw [← hlen]
      simp [List.take_append_eq_append_take]
    · rename_i h8
      exact Or.inr ⟨pre, z, post, rfl, hpre, hz, Or.inl (by omega)⟩

theorem terminator_not_ws {z : Nat} (h : isTerminator z = true) :
    isWs z = false ∧ isTrailDecor z = false := by
  unfold isTerminator at h
  simp only [Bool.or_eq_true, beq_iff_eq] at h
  rcases h with (rfl | rfl) | rfl <;> exact ⟨by decide, by decide⟩

theorem collapseWsAux_append_cons {z : Nat} (b : Bool) (pre post : List Nat)
    (hz : isWs z = false) :
    collapseWsAux b (pre ++ z :: post) =
      collapseWsAux b pre ++ z :: collapseWsAux false post := by
  induction pre generalizing b with
  | nil => simp [collapseWsAux, hz]
  | cons a pre ih =>
    by_cases ha : isWs a = true
    · cases b <;> simp [collapseWsAux, ha, ih]
    · simp [collapseWsAux, ha, ih]

theorem mem_collapse {b : Bool} {l : List Nat} {u : Nat}
    (h : u ∈ collapseWsAux b l) : u ∈ l ∨ u = 32 := by
  induction l generalizing b with
  | nil => simp [collapseWsAux] at h
  | cons a l ih =>
    by_cases ha : isWs a = true
    · cases b with
      | true =>
        simp only [collapseWsAux, ha, if_true] at h
        rcases ih h with h | h
        · exact Or.inl (List.mem_cons_of_mem _ h)
        · exact Or.inr h
      | false =>
        simp only [collapseWsAux, ha, if_true, Bool.false_eq_true, if_false,
          List.mem_cons] at h
        rcases h with h | h
        · exact Or.inr h
        · rcases ih h with h | h
          · exact Or.inl (List.mem_cons_of_mem _ h)
          · exact Or.inr h
    · have ha' : isWs a = false := by simpa using ha
      rw [collapseWsAux_cons_of_not _ _ ha'] at h
      rcases List.mem_cons.mp h with h | h
      · exact Or.inl (by simp [h])
      · rcases ih h with h | h
        · exact Or.inl (List.mem_cons_of_mem _ h)
        · exact Or.inr h

theorem length_collapse_le (b : Bool) (l : List Nat) :
    (collapseWsAux b l).length ≤ l.length := by
  induction l generalizing b with
  | nil => simp [collapseWsAux]
  | cons a l ih =>
    by_cases ha : isWs a = true
    · cases b with
      | true =>
        simp only [collapseWsAux, ha, if_true, List.length_cons]
        have := ih true
        omega
      | false =>
        simp only [collapseWsAux, ha, if_true, Bool.false_eq_true, if_false,
          List.length_cons]
        have := ih true
        omega
    · have ha' : isWs a = false := by simpa using ha
      rw [collapseWsAux_cons_of_not _ _ ha']
      simp only [List.length_cons]
      have := ih false
      omega

theorem settled_collapse {l : List Nat} (b : Bool) (h : Settled l) :
    Settled (collapseWsAux b l) := by
  have hterm : ∀ (b : Bool) (m : List Nat), (∀ u ∈ m, isTerminator u = false) →
      ∀ u ∈ collapseWsAux b m, isTerminator u = false := by
    intro b m hm u hu
    rcases mem_collapse hu with hu | rfl
    · exact hm u hu
    · decide
  rcases h with h | ⟨pre, z, post, rfl, hpre, hz, hor⟩
  · exact Or.inl (hterm b l h)
  · rw [collapseWsAux_append_cons b pre post (terminator_not_ws hz).1]
    refine Or.inr ⟨_, z, _, rfl, hterm b pre hpre, hz, ?_⟩
    rcases hor with h | h
    · exact Or.inl (le_trans (length_collapse_le b pre) h)
    · subst h
      exact Or.inr rfl

theorem dropWhile_append_cons_stop {p : Nat → Bool} {z : Nat} (u v : List Nat)
    (hz : p z = false) : (u ++ z :: v).dropWhile p = u.dropWhile p ++ z :: v := by
  induction u with
  | nil => simp [List.dropWhile, hz]
  | cons x u ih =>
    by_cases hx : p x = true
    · simp [List.dropWhile, hx, ih]
    · simp [List.dropWhile, hx]

theorem dropTrailing_append_cons {p : Nat → Bool} {z : Nat} (a b : List Nat)
    (hz : p z = false) :
    dropTrailing p (a ++ z :: b) = a ++ z :: dropTrailing p b := by
  unfold dropTrailing
  simp only [List.reverse_append, List.reverse_cons, List.append_assoc,
    List.singleton_append]
  rw [dropWhile_append_cons_stop _ _ hz]
  simp

theorem mem_dropTrailing {p : Nat → Bool} {l : List Nat} {u : Nat}
    (h : u ∈ dropTrailing p l) : u ∈ l := by
  obtain ⟨sfx, hl, -⟩ := dropTrailing_decomp p l
  rw [hl]
  exact List.mem_append_left _ h

theorem length_dropTrailing_le (p : Nat → Bool) (l : List Nat) :
    (dropTrailing p l).length ≤ l.length := by
  obtain ⟨sfx, hl, -⟩ := dropTrailing_decomp p l
  conv_rhs => rw [hl]
  simp

theorem settled_dropTrailing {l : List Nat} (h : Settled l) :
    Settled (dropTrailing isTrailDecor l) := by
  rcases h with h | ⟨pre, z, post, rfl, hpre, hz, hor⟩
  · exact Or.inl (fun u hu => h u (mem_dropTrailing hu))
  · rw [dropTrailing_append_cons pre post (terminator_not_ws hz).2]
    refine Or.inr ⟨pre, z, _, rfl, hpre, hz, ?_⟩
    rcases hor with h | h
    · exact Or.inl h
    · subst h
      exact Or.inr rfl

theorem settled_head_swap {c d : Nat} {l : List Nat} (h : Settled (c :: l))
    (hcd : isTerminator d = isTerminator c) : Settled (d :: l) := by
  rcases h with h | ⟨pre, z, post, hl, hpre, hz, hor⟩
  · left
    intro u hu
    rcases List.mem_cons.mp hu with rfl | hu
    · rw [hcd]
      exact h c (by simp)
    · exact h u (List.mem_cons_of_mem _ hu)
  · right
    cases pre with
    | nil =>
      simp only [List.nil_append, List.cons.injEq] at hl
      obtain ⟨h1, h2⟩ := hl
      subst h1
      refine ⟨[], d, post, by rw [h2]; rfl, by simp, by rw [hcd]; exact hz, hor⟩
    | cons a pre =>
      simp only [List.cons_append, List.cons.injEq] at hl
      obtain ⟨h1, h2⟩ := hl
      subst h1
      refine ⟨d :: pre, z, post, by rw [h2]; rfl, ?_, hz, by simpa using hor⟩
      intro u hu
      rcases List.mem_cons.mp hu with rfl | hu
      · rw [hcd]
        exact hpre c (by simp)
      · exact hpre u (List.mem_cons_of_mem _ hu)

/-! ### Single spacing -/

theorem collapse_true_head {l : List Nat} {d : Nat}
    (h : (collapseWsAux true l).head? = some d) : isWs d = false := by
  rw [collapseWsAux_true_eq] at h
  cases hl : l.dropWhile isWs with
  | nil => simp [hl, collapseWsAux] at h
  | cons e es =>
    have he : isWs e = false := head_dropWhile_not (l := l) (by rw [hl]; rfl)
    rw [hl, collapseWsAux_cons_of_not _ _ he] at h
    simp only [List.head?_cons, Option.some.injEq] at h
    subst h
    exact he

theorem singleSpaced_cons (c : Nat) (cs : List Nat) :
    singleSpaced (c :: cs) =
      ((!isWs c || (c == 32 && (match cs with
        | [] => true
        | d :: _ => !isWs d))) && singleSpaced cs) := rfl

theorem singleSpaced_collapse (b : Bool) (l : List Nat) :
    singleSpaced (collapseWsAux b l) = true := by
  induction l generalizing b with
  | nil => rfl
  | cons a l ih =>
    by_cases ha : isWs a = true
    · cases b with
      | true =>
        simp only [collapseWsAux, ha, if_true]
        exact ih true
      | false =>
        simp only [collapseWsAux, ha, if_true, Bool.false_eq_true, if_false]
        rw [singleSpaced_cons, ih true]
        cases hr : collapseWsAux true l with
        | nil => simp
        | cons d ds =>
          have := collapse_true_head (l := l) (d := d) (by rw [hr]; rfl)
          simp [this]
    · have ha' : isWs a = false := by simpa using ha
      rw [collapseWsAux_cons_of_not _ _ ha', singleSpaced_cons, ih false]
      simp [ha']

theorem singleSpaced_left {a b : List Nat} (h : singleSpaced (a ++ b) = true) :
    singleSpaced a = true := by
  induction a with
  | nil => rfl
  | cons x a ih =>
    rw [List.cons_append, singleSpaced_cons, Bool.and_eq_true] at h
    rw [singleSpaced_cons, Bool.and_eq_true]
    refine ⟨?_, ih h.2⟩
    cases a with
    | nil =>
      have h1 := h.1
      simp only [Bool.or_eq_true, Bool.not_eq_true', Bool.and_eq_true, beq_iff_eq] at h1 ⊢
      rcases h1 with h1 | h1
      · exact Or.inl h1
      · exact Or.inr ⟨h1.1, trivial⟩
    | cons y a => exact h.1

theorem singleSpaced_head_swap {c d : Nat} {l : List Nat}
    (h : singleSpaced (c :: l) = true) (hd : isWs d = false) :
    singleSpaced (d :: l) = true := by
  rw [singleSpaced_cons, Bool.and_eq_true] at h
  rw [singleSpaced_cons, Bool.and_eq_true]
  exact ⟨by simp [hd], h.2⟩

/-! ### The steps on a clean title -/

theorem mem_dropWhile {p : Nat → Bool} {l : List Nat} {u : Nat}
    (h : u ∈ l.dropWhile p) : u ∈ l := by
  rw [← List.takeWhile_append_dropWhile p l]
  exact List.mem_append_right _ h

theorem length_dropWhile_le (p : Nat → Bool) (l : List Nat) :
    (l.dropWhile p).length ≤ l.length := by
  have h := congrArg List.length (List.takeWhile_append_dropWhile p l)
  rw [List.length_append] at h
  omega

theorem mem_trim {l : List Nat} {u : Nat} (h : u ∈ trim l) : u ∈ l :=
  mem_dropWhile (mem_dropTrailing h)

theorem length_trim_le (l : List Nat) : (trim l).length ≤ l.length :=
  le_trans (length_dropTrailing_le _ _) (length_dropWhile_le _ _)

theorem hasUrl_trim {l : List Nat} (h : hasUrl l = false) : hasUrl (trim l) = false :=
  hasUrl_dropTrailing (hasUrl_dropWhile h)

theorem frontClean_clean {x : List Nat} (hx : CleanTitle x) : frontClean x = trim x := by
  have h2 : firstLine (trim x) = trim x :=
    firstLine_eq_self (fun h => hx.singleLine (mem_trim h))
  have h3 : stripHeading (trim x) = trim x := stripHeading_eq_self hx.noHeading
  have h4 : stripTicks (trim x) = trim x :=
    stripTicks_eq_self (fun h => hx.noTick (mem_trim h))
  have h5 : stripUrls (trim x) = trim x := stripUrls_eq_self (hasUrl_trim hx.noUrl)
  have h6 : stripPrefix (trim x) = trim x := by
    unfold stripPrefix
    rw [hx.noPrefix]
  unfold frontClean
  rw [h2, h3, h4, h5, h6]

/-- The sentence cut keeps a prefix; when it removes something, what it keeps
ends with a terminator. -/
theorem sentenceCut_keeps (t : List Nat) :
    ∃ rest, t = sentenceCut t ++ rest ∧
      (rest = [] ∨ ∃ z, (sentenceCut t).getLast? = some z ∧ isTerminator z = true) := by
  unfold sentenceCut
  cases h : searchTerminator t with
  | none => exact ⟨[], by simp, Or.inl rfl⟩
  | some i =>
    obtain ⟨pre, z, post, rfl, hlen, hpre, hz⟩ := searchTerminator_decomp h
    simp only
    split
    · refine ⟨post, ?_, Or.inr ⟨z, ?_, hz⟩⟩
      · rw [← hlen]
        simp [List.take_append_eq_append_take]
      · rw [← hlen]
        simp [List.take_append_eq_append_take]
    · exact ⟨[], by simp, Or.inl rfl⟩

theorem sentenceCut_cons (c : Nat) (cs : List Nat) :
    ∃ bs, sentenceCut (c :: cs) = c :: bs := by
  unfold sentenceCut
  cases h : searchTerminator (c :: cs) with
  | none => exact ⟨cs, rfl⟩
  | some i =>
    simp only
    split
    · exact ⟨cs.take i, rfl⟩
    · exact ⟨cs, rfl⟩

/-- Whitespace, trimming and decoration steps on a text that begins with a
unit which is no leading decoration. -/
theorem polish_shape {c : Nat} (bs : List Nat) (hc : isLeadDecor c = false) :
    stripDecor (trim (collapseWs (c :: bs))) =
      dropTrailing isTrailDecor (c :: collapseWsAux false bs) := by
  have hws : isWs c = false := leadDecor_of_ws hc
  unfold collapseWs
  rw [collapseWsAux_cons_of_not _ _ hws]
  unfold trim
  rw [dropWhile_eq_self_of_head hws, dropTrailing_cons_of_not _ hws]
  unfold stripDecor
  rw [dropWhile_eq_self_of_head hc, ← dropTrailing_cons_of_not _ hws,
    dropTrailing_dropTrailing _ (fun u hu => ws_trailDecor hu)]

/-- Upper-casing a first unit that is ASCII or fixed by the table. -/
theorem cap_unit (tbl : Nat → List Nat) {c : Nat} (h : c < 128 ∨ tbl c = [c]) :
    ∃ d, toUpperCase tbl c = [d] ∧ toUpperCase tbl d = [d] ∧ foldCase d = foldCase c ∧
      isTerminator d = isTerminator c ∧ (isWs c = false → isWs d = false) ∧
      (isLeadDecor c = false → isLeadDecor d = false) ∧
      (isTrailDecor c = false → isTrailDecor d = false) ∧
      (c ≠ 35 → d ≠ 35) ∧ (c ≠ 10 → d ≠ 10) ∧ (c ≠ 96 → d ≠ 96) ∧ d ≠ 104 := by
  by_cases hlow : 97 ≤ c ∧ c ≤ 122
  · refine ⟨c - 32, by simp [toUpperCase, hlow], ?_, ?_, ?_, ?_, ?_, ?_, ?_, ?_, ?_, ?_⟩
    · have h1 : ¬ (97 ≤ c - 32 ∧ c - 32 ≤ 122) := by omega
      have h2 : c - 32 < 128 := by omega
      simp only [toUpperCase, h1, h2, if_false, if_true]
    · have h1 : (65 ≤ c - 32 && c - 32 ≤ 90) = true := by
        simp only [Bool.and_eq_true, decide_eq_true_eq]
        omega
      have h2 : (65 ≤ c && c ≤ 90) = false := by
        simp only [Bool.and_eq_false_iff, decide_eq_false_iff_not]
        omega
      simp only [foldCase, h1, h2, if_true, Bool.false_eq_true, if_false]
      omega
    · have h1 : isTerminator (c - 32) = false := by
        simp only [isTerminator, Bool.or_eq_false_iff, beq_eq_false_iff_ne]
        omega
      have h2 : isTerminator c = false := by
        simp only [isTerminator, Bool.or_eq_false_iff, beq_eq_false_iff_ne]
        omega
      rw [h1, h2]
    · intro _
      simp only [isWs, Bool.or_eq_false_iff, beq_eq_false_iff_ne, Bool.and_eq_false_iff,
        decide_eq_false_iff_not]
      omega
    · intro _
      simp only [isLeadDecor, isWs, Bool.or_eq_false_iff, beq_eq_false_iff_ne,
        Bool.and_eq_false_iff, decide_eq_false_iff_not]
      omega
    · intro _
      simp only [isTrailDecor, isWs, Bool.or_eq_false_iff, beq_eq_false_iff_ne,
        Bool.and_eq_false_iff, decide_eq_false_iff_not]
      omega
    · intro _; omega
    · intro _; omega
    · intro _; omega
    · omega
  · have hup : toUpperCase tbl c = [c] := by
      rcases h with h | h
      · simp [toUpperCase, hlow, h]
      · by_cases h128 : c < 128
        · simp [toUpperCase, hlow, h128]
        · simp [toUpperCase, hlow, h128, h]
    refine ⟨c, hup, hup, rfl, rfl, id, id, id, id, id, id, ?_⟩
    omega

theorem trailDecor_units {sfx : List Nat} (h : ∀ u ∈ sfx, isTrailDecor u = true) :
    atWordEnd sfx = true := by
  cases sfx with
  | nil => rfl
  | cons a sfx =>
    have := trailDecor_not_word (h a (by simp))
    simp [atWordEnd, this]

theorem terminator_not_word {z : Nat} (h : isTerminator z = true) : isWord z = false := by
  unfold isTerminator at h
  simp only [Bool.or_eq_true, beq_iff_eq] at h
  rcases h with (rfl | rfl) | rfl <;> decide

/-- After the sentence cut, the remaining steps turn a clean trimmed text into
`"Thread"` or into a tidy title. -/
theorem finish_tidy (tbl : Nat → List Nat) {c : Nat} {cs : List Nat}
    (hlen : (c :: cs).length ≤ 60) (h10 : 10 ∉ c :: cs) (h96 : 96 ∉ c :: cs)
    (hurl : hasUrl (c :: cs) = false) (hpre : matchPrefix (c :: cs) = none)
    (hlead : isLeadDecor c = false) (h35 : c ≠ 35) (hcap : c < 128 ∨ tbl c = [c]) :
    finish tbl (sentenceCut (c :: cs)) = threadTitle ∨
      Tidy tbl (finish tbl (sentenceCut (c :: cs))) := by
  have hws : isWs c = false := leadDecor_of_ws hlead
  obtain ⟨bs, hB⟩ := sentenceCut_cons c cs
  obtain ⟨rest, hrest, hor⟩ := sentenceCut_keeps (c :: cs)
  have hsettled := sentenceCut_settled (c :: cs)
  rw [hB] at hrest hor hsettled ⊢
  -- facts on the cut text `c :: bs`
  have hBmem : ∀ u ∈ c :: bs, u ∈ c :: cs := by
    intro u hu
    rw [hrest]
    exact List.mem_append_left _ hu
  have hBlen : (c :: bs).length ≤ (c :: cs).length := by
    have := congrArg List.length hrest
    rw [List.length_append] at this
    omega
  have hBurl : hasUrl (c :: bs) = false := by
    rw [hrest] at hurl
    exact hasUrl_left hurl
  have hBpre : (matchPrefix (c :: bs)).isSome = false := by
    cases hs : (matchPrefix (c :: bs)).isSome with
    | false => rfl
    | true =>
      exfalso
      have hext : atWordEnd rest = true ∨
          ∃ z, (c :: bs).getLast? = some z ∧ isWord z = false := by
        rcases hor with h | ⟨z, hz, hzt⟩
        · subst h
          exact Or.inl rfl
        · exact Or.inr ⟨z, hz, terminator_not_word hzt⟩
      have := matchPrefix_ext rest hws hs hext
      rw [← hrest, hpre] at this
      exact Bool.noConfusion this
  -- the collapsed text and what decoration stripping leaves of it
  have hCeq : collapseWsAux false (c :: bs) = c :: collapseWsAux false bs :=
    collapseWsAux_cons_of_not _ _ hws
  have hCmem : ∀ u ∈ c :: collapseWsAux false bs, u ∈ c :: cs ∨ u = 32 := by
    intro u hu
    rw [← hCeq] at hu
    rcases mem_collapse hu with h | h
    · exact Or.inl (hBmem u h)
    · exact Or.inr h
  have hClen : (c :: collapseWsAux false bs).length ≤ (c :: cs).length := by
    rw [← hCeq]
    exact le_trans (length_collapse_le _ _) hBlen
  have hCurl : hasUrl (c :: collapseWsAux false bs) = false := by
    rw [← hCeq]
    exact hasUrl_collapse false hBurl
  have hCpre : (matchPrefix (c :: collapseWsAux false bs)).isSome = false := by
    cases hs : (matchPrefix (c :: collapseWsAux false bs)).isSome with
    | false => rfl
    | true =>
      rw [← hCeq] at hs
      rw [matchPrefix_collapse hws hs] at hBpre
      exact Bool.noConfusion hBpre
  have hCsettled : Settled (c :: collapseWsAux false bs) := by
    rw [← hCeq]
    exact settled_collapse false hsettled
  have hCspaced : singleSpaced (c :: collapseWsAux false bs) = true := by
    rw [← hCeq]
    exact singleSpaced_collapse false _
  have hfin : finish tbl (c :: bs) =
      (if (capitalize tbl (dropTrailing isTrailDecor (c :: collapseWsAux false bs))).length = 0
        then threadTitle
        else truncate
          (capitalize tbl (dropTrailing isTrailDecor (c :: collapseWsAux false bs))) 60) := by
    unfold finish
    rw [polish_shape bs hlead]
  rw [hfin]
  obtain ⟨sfx, hdec, hsfx⟩ := dropTrailing_decomp isTrailDecor (c :: collapseWsAux false bs)
  have hElast := @dropTrailing_last isTrailDecor (c :: collapseWsAux false bs)
  have hEsettled := settled_dropTrailing hCsettled
  cases hE : dropTrailing isTrailDecor (c :: collapseWsAux false bs) with
  | nil =>
    left
    simp [capitalize]
  | cons e es =>
    right
    rw [hE] at hdec hElast hEsettled
    have hec : e = c := by
      simp only [List.cons_append, List.cons.injEq] at hdec
      exact hdec.1.symm
    subst hec
    obtain ⟨d, hd1, hd2, hfold, hterm, hdws, hdlead, hdtrail, hd35, hd10, hd96, hd104⟩ :=
      cap_unit tbl hcap
    have hEmem : ∀ u ∈ e :: es, u ∈ e :: cs ∨ u = 32 := by
      intro u hu
      apply hCmem
      rw [hdec]
      exact List.mem_append_left _ hu
    have hElen : (e :: es).length ≤ 60 := by
      have := congrArg List.length hdec
      rw [List.length_append] at this
      omega
    have hF : capitalize tbl (e :: es) = d :: es := by
      simp [capitalize, hd1]
    have hFlen : (d :: es).length ≤ 60 := by simpa using hElen
    have hne : ¬ (d :: es).length = 0 := by simp
    rw [hF]
    simp only [hne, if_false]
    rw [truncate_of_length_le _ _ hFlen]
    have hne10 : e ≠ 10 := fun h => h10 (by simp [h])
    have hne96 : e ≠ 96 := fun h => h96 (by simp [h])
    refine ⟨hFlen, ?_, ?_, ?_, ?_, ?_, ?_, ⟨d, es, rfl, hdlead hlead, hd35 h35, hd2⟩, ?_⟩
    · -- no line feed
      intro h
      rcases List.mem_cons.mp h with h | h
      · exact hd10 hne10 h.symm
      · rcases hEmem 10 (List.mem_cons_of_mem _ h) with h | h
        · exact h10 h
        · exact absurd h (by decide)
    · -- no backtick
      intro h
      rcases List.mem_cons.mp h with h | h
      · exact hd96 hne96 h.symm
      · rcases hEmem 96 (List.mem_cons_of_mem _ h) with h | h
        · exact h96 h
        · exact absurd h (by decide)
    · -- no URL
      have hEurl : hasUrl (e :: es) = false := by
        rw [hdec] at hCurl
        exact hasUrl_left hCurl
      rw [hasUrl_cons, Bool.or_eq_false_iff] at hEurl ⊢
      refine ⟨?_, hEurl.2⟩
      cases hu : urlStartsAt (d :: es) with
      | false => rfl
      | true => exact absurd (urlStartsAt_head hu) hd104
    · -- no prompt prefix
      have hEpre : (matchPrefix (e :: es)).isSome = false := by
        cases hs : (matchPrefix (e :: es)).isSome with
        | false => rfl
        | true =>
          have := matchPrefix_ext sfx hws hs (Or.inl (trailDecor_units hsfx))
          rw [← hdec, hCpre] at this
          exact Bool.noConfusion this
      rw [matchPrefix_head_fold es (hdws hws) hws hfold]
      cases hm : matchPrefix (e :: es) with
      | none => rfl
      | some r =>
        rw [hm] at hEpre
        exact Bool.noConfusion hEpre
    · -- the sentence cut
      exact settled_cut (settled_head_swap hEsettled hterm)
    · -- single spaces
      have : singleSpaced (e :: es) = true := by
        rw [hdec] at hCspaced
        exact singleSpaced_left hCspaced
      exact singleSpaced_head_swap this (hdws hws)
    · -- the last unit
      cases hl : (e :: es).getLast? with
      | none => simp at hl
      | some z =>
        have hz := hElast hl
        cases es with
        | nil =>
          simp only [List.getLast?_singleton, Option.some.injEq] at hl
          subst hl
          exact ⟨d, rfl, hdtrail hz⟩
        | cons y ys =>
          refine ⟨z, ?_, hz⟩
          rw [List.getLast?_cons_cons] at hl ⊢
          exact hl

theorem cleanTitle_of_check {x : List Nat} (h : cleanCheck x = true) : CleanTitle x := by
  simp only [cleanCheck, Bool.and_eq_true, Bool.not_eq_true', decide_eq_true_eq,
    decide_eq_false_iff_not, Option.isNone_iff_eq_none] at h
  obtain ⟨⟨⟨⟨⟨⟨h1, h2⟩, h3⟩, h4⟩, h5⟩, h6⟩, h7⟩ := h
  refine ⟨h1, h2, h3, h4, h5, h6, ?_⟩
  intro c hc
  rw [hc] at h7
  simpa using h7

/-- C10 as stated fails: `"ſummarize this text"` (first unit U+017F, long s)
is a single short line without heading marker, backtick, URL, prompt prefix or
leading decoration; upper-casing turns its first unit into `S`, so the title is
`"Summarize this text"`, from which a second application strips the prefix
`Summarize `. -/
theorem C10_upper_casing_exposes_prefix :
    cleanCheck (383 :: utf16 "ummarize this text") = true ∧
      summarizeTitle latinTable (some (383 :: utf16 "ummarize this text")) =
        utf16 "Summarize this text" ∧
      summarizeTitle latinTable
          (some (summarizeTitle latinTable (some (383 :: utf16 "ummarize this text")))) =
        utf16 "This text" ∧
      summarizeTitle latinTable
          (some (summarizeTitle latinTable (some (383 :: utf16 "ummarize this text")))) ≠
        summarizeTitle latinTable (some (383 :: utf16 "ummarize this text")) := by
  refine ⟨?_, ?_, ?_, ?_⟩ <;> decide

/-- C10, amended: for every clean title `x` (a single line of at most 60 units
with no leading heading marker, no backtick, no URL, no leading prompt prefix
and no leading bullet or dash) whose first unit after trimming is ASCII or is
left unchanged by upper-casing, `summarizeTitle (summarizeTitle x)` equals
`summarizeTitle x`. -/
theorem C10_idempotent_on_clean_titles (tbl : Nat → List Nat) (x : List Nat)
    (hx : CleanTitle x)
    (hcap : ∀ c, (trim x).head? = some c → c < 128 ∨ tbl c = [c]) :
    summarizeTitle tbl (some (summarizeTitle tbl (some x))) =
      summarizeTitle tbl (some x) := by
  by_cases hlen : x.length = 0
  · have : x = [] := List.length_eq_zero.mp hlen
    subst this
    rfl
  · have hsum : summarizeTitle tbl (some x) = finish tbl (sentenceCut (trim x)) := by
      simp only [summarizeTitle, hlen, if_false, frontClean_clean hx]
    have hthread : summarizeTitle tbl (some threadTitle) = threadTitle := rfl
    rw [hsum]
    cases ht : trim x with
    | nil => exact hthread
    | cons c cs =>
      have hsub : ∀ u ∈ c :: cs, u ∈ x := by
        intro u hu
        rw [← ht] at hu
        exact mem_trim hu
      have h35 : c ≠ 35 := by
        intro e
        apply hx.noHeading
        rw [ht, e]
        rfl
      have := @finish_tidy tbl c cs
        (by rw [← ht]; exact le_trans (length_trim_le x) hx.short)
        (fun h => hx.singleLine (hsub 10 h))
        (fun h => hx.noTick (hsub 96 h))
        (by rw [← ht]; exact hasUrl_trim hx.noUrl)
        (by rw [← ht]; exact hx.noPrefix)
        (hx.noLead c (by rw [ht]; rfl)) h35
        (hcap c (by rw [ht]; rfl))
      rcases this with h | h
      · rw [h]
        exact hthread
      · exact summarizeTitle_tidy tbl h

/-- Instance of the amended C10 at `"The sea is calm today. Quite so"`. -/
theorem C10_idempotent_on_clean_titles_witness :
    summarizeTitle plainTable
        (some (summarizeTitle plainTable
          (some (utf16 "The sea is calm today. Quite so")))) =
      summarizeTitle plainTable (some (utf16 "The sea is calm today. Quite so")) :=
  C10_idempotent_on_clean_titles plainTable (utf16 "The sea is calm today. Quite so")
    (cleanTitle_of_check (by decide))
    (fun c hc => by
      have h : (trim (utf16 "The sea is calm today. Quite so")).head? = some 84 := by
        decide
      rw [h] at hc
      simp only [Option.some.injEq] at hc
      subst hc
      exact Or.inl (by decide))

/-! ## The sentence cut and the title -/

theorem terminator_not_lead {z : Nat} (h : isTerminator z = true) :
    isLeadDecor z = false := by
  unfold isTerminator at h
  simp only [Bool.or_eq_true, beq_iff_eq] at h
  rcases h with (rfl | rfl) | rfl <;> decide

theorem toUpperCase_terminator (tbl : Nat → List Nat) {z : Nat}
    (h : isTerminator z = true) : toUpperCase tbl z = [z] := by
  unfold isTerminator at h
  simp only [Bool.or_eq_true, beq_iff_eq] at h
  rcases h with (rfl | rfl) | rfl <;> simp [toUpperCase]

/-- Whitespace and decoration stripping keeps a final terminator. -/
theorem polish_terminated (pre : List Nat) {z : Nat} (hz : isTerminator z = true) :
    ∃ ys, stripDecor (trim (collapseWs (pre ++ [z]))) = ys ++ [z] := by
  have hws := (terminator_not_ws hz).1
  have htrail := (terminator_not_ws hz).2
  have hlead := terminator_not_lead hz
  refine ⟨((collapseWsAux false pre).dropWhile isWs).dropWhile isLeadDecor, ?_⟩
  unfold collapseWs
  rw [collapseWsAux_append_cons false pre [] hws]
  have hnil : collapseWsAux false [] = [] := rfl
  rw [hnil]
  unfold trim
  rw [dropWhile_append_stop _ hws, dropTrailing_append_singleton _ hws]
  unfold stripDecor
  rw [dropWhile_append_stop _ hlead, dropTrailing_append_singleton _ htrail]

theorem length_polish_le (l : List Nat) :
    (stripDecor (trim (collapseWs l))).length ≤ l.length := by
  unfold stripDecor
  refine le_trans (length_dropTrailing_le _ _) ?_
  refine le_trans (length_dropWhile_le _ _) ?_
  refine le_trans (length_trim_le _) ?_
  exact length_collapse_le false l

theorem capitalize_terminated (tbl : Nat → List Nat) (ys : List Nat) {z : Nat}
    (hz : isTerminator z = true) :
    (capitalize tbl (ys ++ [z])).getLast? = some z ∧
      (capitalize tbl (ys ++ [z])).length ≠ 0 := by
  cases ys with
  | nil => simp [capitalize, toUpperCase_terminator tbl hz]
  | cons y ys =>
    simp only [List.cons_append, capitalize]
    constructor
    · rw [← List.append_assoc]
      simp
    · simp

theorem take_succ_decomp (pre post : List Nat) (z : Nat) :
    (pre ++ z :: post).take (pre.length + 1) = pre ++ [z] := by
  simp [List.take_append_eq_append_take]

/-- C8 as stated fails.  In `"Dr. Smith went home. Then slept"` nothing is
stripped up front and the terminators sit at indices 2 and 19, so the first
terminator whose index is greater than 8 is the one at 19; yet the title keeps
the text after it.  And in the 60 units `ß`, 58 times `a`, `.` the only
terminator is at index 59, but upper-casing the first unit to `SS` makes 61
units, and truncation removes the terminator. -/
theorem C8_early_terminator_blocks_cut :
    frontClean (utf16 "Dr. Smith went home. Then slept") =
        utf16 "Dr. Smith went home. Then slept" ∧
      (utf16 "Dr. Smith went home. Then slept")[19]? = some 46 ∧
      ((utf16 "Dr. Smith went home. Then slept").take 19).drop 9 =
        utf16 " went home" ∧
      summarizeTitle plainTable (some (utf16 "Dr. Smith went home. Then slept")) =
        utf16 "Dr. Smith went home. Then slept" ∧
      finish plainTable ((utf16 "Dr. Smith went home. Then slept").take 20) =
        utf16 "Dr. Smith went home." ∧
      summarizeTitle plainTable (some (utf16 "Dr. Smith went home. Then slept")) ≠
        finish plainTable ((utf16 "Dr. Smith went home. Then slept").take 20) ∧
      frontClean (223 :: (List.replicate 58 97 ++ [46])) =
        223 :: (List.replicate 58 97 ++ [46]) ∧
      (223 :: (List.replicate 58 97 ++ [46])).length = 60 ∧
      searchTerminator (223 :: (List.replicate 58 97 ++ [46])) = some 59 ∧
      summarizeTitle latinTable (some (223 :: (List.replicate 58 97 ++ [46]))) =
        83 :: 83 :: (List.replicate 57 97 ++ [8230]) := by
  refine ⟨?_, ?_, ?_, ?_, ?_, ?_, ?_, ?_, ?_, ?_⟩
  · rfl
  · rfl
  · rfl
  · rfl
  · rfl
  · decide
  · rfl
  · rfl
  · rfl
  · rfl

/-- C8, amended: let `t`, of at most 60 units, be the text left of the first
line after heading, backtick, URL and prefix stripping, and let upper-casing
not lengthen the first unit of the title.  If the first terminator (`.`, `!`
or `?`) of `t` is at an index `i` greater than 8, the title is `t` up to and
including that terminator, with whitespace collapsed, decoration stripped and
the first unit upper-cased; it ends with that terminator and everything after
it is dropped.  If `t` has no terminator, or its first terminator is at index
8 or lower, nothing is cut: the title is the whole of `t`, with whitespace
collapsed, decoration stripped and the first unit upper-cased, or `"Thread"`
when nothing is left. -/
theorem C8_cut_at_first_terminator (tbl : Nat → List Nat) (s : List Nat)
    (hs : s ≠ []) (ht : (frontClean s).length ≤ 60) :
    (∀ i c, (frontClean s)[i]? = some c → isTerminator c = true →
      (∀ j d, j < i → (frontClean s)[j]? = some d → isTerminator d = false) →
      8 < i →
      (capitalize tbl
          (stripDecor (trim (collapseWs ((frontClean s).take (i + 1)))))).length ≤
        (stripDecor (trim (collapseWs ((frontClean s).take (i + 1))))).length →
      summarizeTitle tbl (some s) =
          capitalize tbl (stripDecor (trim (collapseWs ((frontClean s).take (i + 1))))) ∧
        (summarizeTitle tbl (some s)).getLast? = some c) ∧
    ((∀ i c, (frontClean s)[i]? = some c → isTerminator c = true →
      (∀ j d, j < i → (frontClean s)[j]? = some d → isTerminator d = false) →
      i ≤ 8) →
      (capitalize tbl (stripDecor (trim (collapseWs (frontClean s))))).length ≤
        (stripDecor (trim (collapseWs (frontClean s)))).length →
      summarizeTitle tbl (some s) =
        (if (capitalize tbl (stripDecor (trim (collapseWs (frontClean s))))).length = 0
          then utf16 "Thread"
          else capitalize tbl (stripDecor (trim (collapseWs (frontClean s)))))) := by
  have hlen : ¬ s.length = 0 := fun h => hs (List.length_eq_zero.mp h)
  have hsum : summarizeTitle tbl (some s) = finish tbl (sentenceCut (frontClean s)) := by
    simp [summarizeTitle, hlen]
  constructor
  · intro i c hi hc hbefore h8 hup
    -- the cut is at `i`
    have hcut : sentenceCut (frontClean s) = (frontClean s).take (i + 1) := by
      unfold sentenceCut
      cases hst : searchTerminator (frontClean s) with
      | none =>
        have := searchTerminator_none hst c (mem_of_getElem?_eq_some hi)
        simp [hc] at this
      | some k =>
        obtain ⟨⟨e, hk, he⟩, hkb⟩ := searchTerminator_some hst
        have hik : i = k := first_terminator_unique hi hc hbefore hk he hkb
        subst hik
        simp [h8]
    -- what is kept ends with the terminator
    obtain ⟨hlt, hget⟩ := List.getElem?_eq_some.mp hi
    have htake : (frontClean s).take (i + 1) = (frontClean s).take i ++ [c] := by
      rw [List.take_succ, hi]
      rfl
    obtain ⟨ys, hys⟩ := polish_terminated ((frontClean s).take i) hc
    rw [← htake] at hys
    obtain ⟨hlast, hne⟩ := capitalize_terminated tbl ys hc
    rw [← hys] at hlast hne
    have h60 : (capitalize tbl
        (stripDecor (trim (collapseWs ((frontClean s).take (i + 1)))))).length ≤ 60 := by
      refine le_trans hup (le_trans (length_polish_le _) ?_)
      rw [List.length_take]
      exact le_trans (Nat.min_le_right _ _) ht
    have hfin : summarizeTitle tbl (some s) =
        capitalize tbl (stripDecor (trim (collapseWs ((frontClean s).take (i + 1))))) := by
      rw [hsum, hcut]
      simp only [finish, hne, if_false]
      exact truncate_of_length_le _ _ h60
    exact ⟨hfin, by rw [hfin]; exact hlast⟩
  · intro hall hup
    have hcut : sentenceCut (frontClean s) = frontClean s := by
      unfold sentenceCut
      cases hst : searchTerminator (frontClean s) with
      | none => rfl
      | some k =>
        obtain ⟨⟨e, hk, he⟩, hkb⟩ := searchTerminator_some hst
        have := hall k e hk he hkb
        simp [Nat.not_lt.mpr this]
    have h60 : (capitalize tbl
        (stripDecor (trim (collapseWs (frontClean s))))).length ≤ 60 :=
      le_trans hup (le_trans (length_polish_le _) ht)
    rw [hsum, hcut]
    simp only [finish]
    split
    · rfl
    · exact truncate_of_length_le _ _ h60

theorem poem_frontClean :
    frontClean (utf16 "# Write a poem about the sea.\nSecond line ignored") =
      [97, 32, 112, 111, 101, 109, 32, 97, 98, 111, 117, 116, 32, 116, 104, 101, 32,
        115, 101, 97, 46] := by
  rfl

theorem poem_no_early_terminator (j d : Nat) (hj : j < 20)
    (hd : (frontClean (utf16 "# Write a poem about the sea.\nSecond line ignored"))[j]? =
      some d) : isTerminator d = false := by
  rw [poem_frontClean] at hd
  interval_cases j <;> simp at hd <;> subst hd <;> rfl

/-- Instance of the amended C8, the example of the specification: the heading
marker and `Write ` are stripped, the first terminator is at index 20, and the
title is `"A poem about the sea."`. -/
theorem C8_cut_at_first_terminator_witness :
    summarizeTitle plainTable
        (some (utf16 "# Write a poem about the sea.\nSecond line ignored")) =
      utf16 "A poem about the sea." :=
  (((C8_cut_at_first_terminator plainTable
      (utf16 "# Write a poem about the sea.\nSecond line ignored") (by decide)
      (by decide)).1
    20 46 rfl rfl poem_no_early_terminator (by decide) (by decide)).1).trans rfl

end Chat
